import Mathlib

/-!
# The `tcpPool` connection pool

A shallow embedding of `net/tcpPool/channel.go` and `net/tcpPool/connect.go`.

* A `net.Conn` interface value is a `Conn`: the nil interface, a transport made
  outside the package (known only by an identity), or a pointer to a `PoolConn`.
  The fields `Conn` and `c` of a `PoolConn` are written once, when the object is
  built, so they are carried by the pointer value; the mutable field `unusable`
  lives in the heap `World.flags`, indexed by the address of the object.
* The program state is a `World`: the one `channelPool` object, the number of
  factory invocations so far, the log of real transport closes, and the heap.
* One goroutine runs the calls. Every method that locks `c.mu` unlocks it before it
  returns (by `defer` in `Get` and `put`, in line in `Close`), so the mutex is free in
  every `World`, which is a state between two calls. Inside a call the state of the
  mutex is a `Mutex` argument: `put` calls `conn.Close()` while it holds `c.mu`, and a
  `Lock` on the held mutex blocks for ever.
* The largest capacity that `make(chan net.Conn, n)` can allocate depends on the
  platform; it is the parameter `chanMax` of `NewChannelPool`.
* `time.Now()` only fills `CreateTime`, which no operation reads.
-/

namespace tcpPool

/-- Go `error` values. `ErrClosed` is the package sentinel (declared outside the two
source files), `errorsNew` is a value built by `errors.New`, `fmtErrorf lead arg` is
`fmt.Errorf(lead + "%s", arg)`, and `foreign` is any error made outside the package. -/
inductive GoError where
  | ErrClosed : GoError
  | errorsNew (msg : String) : GoError
  | fmtErrorf (lead : String) (arg : GoError) : GoError
  | foreign (msg : String) : GoError
  deriving DecidableEq

/-- The text of `err.Error()`. The text of the sentinel `ErrClosed` is not in the
source files, so it is a parameter. -/
def GoError.Error (closedText : String) : GoError → String
  | .ErrClosed => closedText
  | .errorsNew msg => msg
  | .fmtErrorf lead arg => lead ++ arg.Error closedText
  | .foreign msg => msg

/-- A `*channelPool` value: nil, or the address of the pool of the `World`. -/
inductive PoolRef where
  | nilRef : PoolRef
  | pool : PoolRef
  deriving DecidableEq

/-- A `net.Conn` interface value. `poolConn addr conn c` is a non-nil `*PoolConn` whose
object sits at `addr` and was built with the fields `Conn: conn` and `c: c`. -/
inductive Conn where
  | nil : Conn
  | transport (id : Nat) : Conn
  | poolConn (addr : Nat) (conn : Conn) (c : PoolRef) : Conn
  deriving DecidableEq

/-- The `net.Conn` a factory hands over: nil or a transport. -/
def Conn.ofTransport : Option Nat → Conn
  | none => .nil
  | some id => .transport id

/-- A `Factory` is `func() (net.Conn, error)`; its result is a function of how many
times it has been invoked before. -/
abbrev Factory := Nat → Option Nat × Option GoError

/-- A buffered `chan net.Conn`: capacity and queued values, oldest first. -/
structure Chan where
  cap : Nat
  buf : List Conn

/-- The struct `channelPool` (without its mutex). -/
structure channelPool where
  conns : Option Chan
  factory : Option Factory

/-- The program state. `closeResult id n` is what the `Close` method of transport `id`
returns when it has been called `n` times before. -/
structure World where
  pool : channelPool
  calls : Nat
  closeLog : List Nat
  flags : List Bool
  closeResult : Nat → Nat → Option GoError

/-- The outcome of a call: normal return, a run-time panic, or a goroutine blocked for ever. -/
inductive Res (α : Type) where
  | ok (val : α) (w : World) : Res α
  | panic (w : World) : Res α
  | blocked (w : World) : Res α

/-- The state in which an outcome leaves the program. -/
def Res.world {α : Type} : Res α → World
  | .ok _ w => w
  | .panic w => w
  | .blocked w => w

/-- The field `unusable` of the `PoolConn` at `addr`. -/
def World.unusable (w : World) (addr : Nat) : Bool :=
  w.flags.getD addr false

/-- Allocation of a `PoolConn` with `unusable` at its zero value. -/
def World.alloc (w : World) : World :=
  { w with flags := w.flags ++ [false] }

/-- The `Close` method of the transport `id`: a real close. -/
def World.realClose (w : World) (id : Nat) : Res (Option GoError) :=
  .ok (w.closeResult id (w.closeLog.count id)) { w with closeLog := w.closeLog ++ [id] }

/-- The successful send `c.conns <- conn` on the channel `ch` of the pool. -/
def World.send (w : World) (ch : Chan) (conn : Conn) : World :=
  { w with pool := { w.pool with conns := some { ch with buf := ch.buf ++ [conn] } } }

/-- The state of the mutex `c.mu` of the pool at a point of a call. -/
inductive Mutex where
  | free : Mutex
  | held : Mutex
  deriving DecidableEq

/-- The body of `channelPool.put` (channel.go 75-93), entered with the mutex in the state
`mu`. The nil check comes first, then `c.mu.Lock()`: it panics on a nil receiver and
blocks for ever on a held mutex. The dynamic call `conn.Close()` of lines 84 and 91, which
runs while `put` holds the mutex, is passed as `closeConn`. -/
def channelPool.putUsing (closeConn : World → Res (Option GoError)) (mu : Mutex)
    (c : PoolRef) (conn : Conn) (w : World) : Res (Option GoError) :=
  if conn = .nil then
    .ok (some (.errorsNew "connection is nil. rejecting")) w
  else
    match c with
    | .nilRef => .panic w
    | .pool =>
      match mu with
      | .held => .blocked w
      | .free =>
        match w.pool.conns with
        | none => closeConn w
        | some ch =>
          if ch.buf.length < ch.cap then .ok none (w.send ch conn) else closeConn w

/-- The method call `conn.Close()` on an interface value, made with the mutex in the
state `mu`: a nil interface panics, a transport is really closed, a `*PoolConn` runs
`PoolConn.Close` (connect.go 15-31), whose call of `put` closes `p.Conn` under the held
mutex. -/
def Conn.CloseUnder : Mutex → Conn → World → Res (Option GoError)
  | _, .nil, w => .panic w
  | _, .transport id, w => w.realClose id
  | mu, .poolConn addr conn c, w =>
    if w.unusable addr then
      if conn ≠ .nil then Conn.CloseUnder mu conn w else .ok none w
    else
      channelPool.putUsing (Conn.CloseUnder .held conn) mu c conn w

/-- The method call `conn.Close()` made by a caller that does not hold the mutex: the
client, or the drain loop of pool `Close`. -/
def Conn.Close (conn : Conn) (w : World) : Res (Option GoError) :=
  Conn.CloseUnder .free conn w

/-- The method `channelPool.put` (channel.go 75-93), called with the mutex free. -/
def channelPool.put (c : PoolRef) (conn : Conn) (w : World) : Res (Option GoError) :=
  channelPool.putUsing (Conn.CloseUnder .held conn) .free c conn w

/-- The method `PoolConn.MarkUnusable` (connect.go 33-35) on the object at `addr`. -/
def PoolConn.MarkUnusable (addr : Nat) (w : World) : World :=
  { w with flags := w.flags.set addr true }

/-- The method `channelPool.wrapConn` (channel.go 45-49): a new `PoolConn` with only the
field `Conn` set. -/
def channelPool.wrapConn (conn : Conn) (w : World) : Conn × World :=
  (.poolConn w.flags.length conn .nilRef, w.alloc)

/-- The method `channelPool.Get` (channel.go 51-73). -/
def channelPool.Get (w : World) : Res (Conn × Option GoError) :=
  match w.pool.conns with
  | none => .ok (.nil, some .ErrClosed) w
  | some ch =>
    match ch.buf with
    | conn :: rest =>
      let w1 : World := { w with pool := { w.pool with conns := some { ch with buf := rest } } }
      if conn = .nil then
        .ok (.nil, some .ErrClosed) w1
      else
        .ok ((channelPool.wrapConn conn w1).1, none) (channelPool.wrapConn conn w1).2
    | [] =>
      match w.pool.factory with
      | none => .panic w
      | some factory =>
        let w1 : World := { w with calls := w.calls + 1 }
        match (factory w.calls).2 with
        | some err => .ok (.nil, some err) w1
        | none =>
          let pconn : Conn := .poolConn w1.flags.length (Conn.ofTransport (factory w.calls).1) .pool
          .ok ((channelPool.wrapConn pconn w1.alloc).1, none) (channelPool.wrapConn pconn w1.alloc).2

/-- The loop `for conn := range conns { conn.Close() }` of `channelPool.Close`. -/
def channelPool.drain : List Conn → World → Res Unit
  | [], w => .ok () w
  | conn :: rest, w =>
    match conn.Close w with
    | .ok _ w1 => channelPool.drain rest w1
    | .panic w1 => .panic w1
    | .blocked w1 => .blocked w1

/-- The method `channelPool.Close` (channel.go 95-111). -/
def channelPool.Close (w : World) : Res Unit :=
  let w1 : World := { w with pool := { conns := none, factory := none } }
  match w.pool.conns with
  | none => .ok () w1
  | some ch => channelPool.drain ch.buf w1

/-- Modelled from the spec: `channelPool.getConns`, which `Len` calls, is not in the
source files; the spec's `Size()` is the "current count of idle connections sitting in
the buffer", so `getConns` reads the field `conns`. -/
def channelPool.getConns (w : World) : Option Chan :=
  w.pool.conns

/-- The method `channelPool.Len` (channel.go 113-115); `len` of a nil channel is 0. -/
def channelPool.Len (w : World) : Nat :=
  match channelPool.getConns w with
  | none => 0
  | some ch => ch.buf.length

/-- The loop of `NewChannelPool` (channel.go 32-40) with `n` rounds left. -/
def NewChannelPool.fill (factory : Option Factory) : Nat → World → Res (PoolRef × Option GoError)
  | 0, w => .ok (.pool, none) w
  | n + 1, w =>
    match factory with
    | none => .panic w
    | some f =>
      let w1 : World := { w with calls := w.calls + 1 }
      match (f w.calls).2 with
      | some err =>
        match channelPool.Close w1 with
        | .ok _ w2 =>
          .ok (.nilRef, some (.fmtErrorf "factory is not able to fill the pool: " err)) w2
        | .panic w2 => .panic w2
        | .blocked w2 => .blocked w2
      | none =>
        let pconn : Conn := .poolConn w1.flags.length (Conn.ofTransport (f w.calls).1) .pool
        match w1.pool.conns with
        | none => .blocked w1.alloc
        | some ch =>
          if ch.buf.length < ch.cap then
            NewChannelPool.fill factory n (w1.alloc.send ch pconn)
          else
            .blocked w1.alloc

/-- The state of a program that has not built its pool yet. -/
def World.start (closeResult : Nat → Nat → Option GoError) : World :=
  { pool := { conns := none, factory := none }, calls := 0, closeLog := [], flags := [],
    closeResult := closeResult }

/-- The function `NewChannelPool` (channel.go 22-43), run in the state `World.start`.
After the guard, `make(chan net.Conn, maxCap)` (channel.go 28) panics when `maxCap` is
above `chanMax`, the largest capacity the platform can allocate. -/
def NewChannelPool (chanMax : Nat) (initialCap maxCap : Int) (factory : Option Factory)
    (closeResult : Nat → Nat → Option GoError) : Res (PoolRef × Option GoError) :=
  if initialCap < 0 ∨ maxCap ≤ 0 ∨ initialCap > maxCap then
    .ok (.nilRef, some (.errorsNew "invalid capacity settings")) (World.start closeResult)
  else if chanMax < maxCap.toNat then
    .panic (World.start closeResult)
  else
    NewChannelPool.fill factory initialCap.toNat
      { World.start closeResult with
        pool := { conns := some { cap := maxCap.toNat, buf := [] }, factory := factory } }

/-- The transport that a pooled connection stands for, if any. -/
def Conn.underlying : Conn → Option Nat
  | .nil => none
  | .transport id => some id
  | .poolConn _ conn _ => conn.underlying

/-- The shapes of the values that the package itself sends on `c.conns`: a transport
(sent by `put`), or the `PoolConn` built at channel.go 38 around a factory result. -/
def Conn.idleEntry : Conn → Bool
  | .transport _ => true
  | .poolConn _ (.transport _) .pool => true
  | .poolConn _ .nil .pool => true
  | _ => false

/-- The shape of the handles that `Get` returns: the `PoolConn` of `wrapConn`, which has
no pool reference, around a value taken from the buffer or built at channel.go 70. -/
def Conn.isHandle : Conn → Bool
  | .poolConn _ conn .nilRef => conn.idleEntry
  | _ => false

/-- The address of the `PoolConn` behind a handle. -/
def Conn.addr? : Conn → Option Nat
  | .poolConn addr _ _ => some addr
  | _ => none

/-- Repeated `Get` with nothing returned in between: `n` calls, results in call order. -/
def channelPool.getMany : Nat → World → Res (List (Conn × Option GoError))
  | 0, w => .ok [] w
  | n + 1, w =>
    match channelPool.Get w with
    | .ok r w1 =>
      match channelPool.getMany n w1 with
      | .ok rs w2 => .ok (r :: rs) w2
      | .panic w2 => .panic w2
      | .blocked w2 => .blocked w2
    | .panic w1 => .panic w1
    | .blocked w1 => .blocked w1

/-- A client of the pool: the program state, the handles that successful `Get` calls
have returned so far (in call order), and whether some call has panicked. -/
structure Client where
  w : World
  handles : List Conn
  panicked : Bool

/-- The calls a client makes. `close i` and `markUnusable i` act on the `i`-th handle
that `Get` returned; the same handle may be used any number of times. -/
inductive Op where
  | get : Op
  | close (i : Nat) : Op
  | markUnusable (i : Nat) : Op
  | poolClose : Op
  | len : Op
  deriving DecidableEq

/-- The state after an outcome; a panic (or a call that never returns) is recorded and
the client carries on from the state in which it happened. -/
def Client.after {α : Type} (s : Client) : Res α → Client
  | .ok _ w => { s with w := w }
  | .panic w => { s with w := w, panicked := true }
  | .blocked w => { s with w := w, panicked := true }

/-- One call of the client. -/
def Client.step (s : Client) : Op → Client
  | .get =>
    match channelPool.Get s.w with
    | .ok (h, none) w => { s with w := w, handles := s.handles ++ [h] }
    | r => s.after r
  | .close i =>
    match s.handles.get? i with
    | some h => s.after (h.Close s.w)
    | none => s
  | .markUnusable i =>
    match (s.handles.get? i).bind Conn.addr? with
    | some addr => { s with w := PoolConn.MarkUnusable addr s.w }
    | none => s
  | .poolClose => s.after (channelPool.Close s.w)
  | .len => s

/-- A sequence of calls, first call first. -/
def Client.run (s : Client) (ops : List Op) : Client :=
  ops.foldl Client.step s

/-- The client that has just received the state `w` from the constructor. -/
def Client.init (w : World) : Client :=
  { w := w, handles := [], panicked := false }

/-- A sample platform limit: `2^44 - 6`, the largest capacity of a channel of interface
values that a 64-bit Go runtime allocates. -/
def chanMax64 : Nat := 17592186044410

/-- A factory that never fails: its `i`-th call (from 0) yields transport `i`. -/
def dialOk : Factory := fun i => (some i, none)

/-- Transports whose `Close` always returns nil. -/
def closeOk : Nat → Nat → Option GoError := fun _ _ => none

/-- The buffer respects the capacity `n` of the channel. -/
def World.bounded (n : Nat) (w : World) : Prop :=
  ∀ ch, w.pool.conns = some ch → ch.cap = n ∧ ch.buf.length ≤ n

/-- Every value in the buffer has one of the shapes `Conn.idleEntry`. -/
def World.idle (w : World) : Prop :=
  ∀ ch, w.pool.conns = some ch → ∀ e ∈ ch.buf, e.idleEntry = true

/-- The buffer and the handles of a client have the shapes the package produces. -/
def Client.wellFormed (s : Client) : Prop :=
  s.w.idle ∧ ∀ h ∈ s.handles, h.isHandle = true

/-- A factory whose calls 0 and 1 succeed and whose later calls fail. -/
def dialTwice : Factory := fun i =>
  if i < 2 then (some (i + 10), none) else (none, some (.foreign "dial refused"))

/-- The state built by `NewChannelPool(1, 1, dialOk)`. -/
def poolOfOne : World := (NewChannelPool chanMax64 1 1 (some dialOk) closeOk).world

/-- The state built by `NewChannelPool(2, 3, dialOk)`. -/
def poolOfTwo : World := (NewChannelPool chanMax64 2 3 (some dialOk) closeOk).world

/-- The pool is either closed, with both fields nil, or live with `f` as its factory. -/
def World.serves (f : Factory) (w : World) : Prop :=
  (w.pool.conns = none ∧ w.pool.factory = none)
    ∨ (w.pool.conns ≠ none ∧ w.pool.factory = some f)

/-- The state built by `NewChannelPool(1, 2, dialOk)`. -/
def poolOfOneInTwo : World := (NewChannelPool chanMax64 1 2 (some dialOk) closeOk).world

/-- The handle index that a call closes, if the call is a `Close` on a handle. -/
def Op.closed? : Op → Option Nat
  | .close i => some i
  | _ => none

/-- The transports behind the values in the buffer, oldest first. -/
def World.idleTransports (w : World) : List Nat :=
  match w.pool.conns with
  | none => []
  | some ch => ch.buf.filterMap Conn.underlying

/-- The transports behind the handles `hs`, numbered from `k`, leaving out the handles
whose index is in `done`. -/
def Client.heldFrom (done : List Nat) : Nat → List Conn → List Nat
  | _, [] => []
  | k, h :: hs =>
    (if k ∈ done then [] else h.underlying.toList) ++ Client.heldFrom done (k + 1) hs

/-- The transports behind the handles of a client that have not been closed, `done`
being the indices of the handles closed so far. -/
def Client.heldTransports (s : Client) (done : List Nat) : List Nat :=
  Client.heldFrom done 0 s.handles

/-- The transports that are idle in the buffer or checked out and not yet closed. -/
def Client.inPlay (s : Client) (done : List Nat) : List Nat :=
  s.w.idleTransports ++ s.heldTransports done

/-- No transport sits twice in the buffer, and each one came from an earlier factory call. -/
def World.fresh (f : Factory) (w : World) : Prop :=
  (∀ t, w.idleTransports.count t ≤ 1)
    ∧ ∀ t ∈ w.idleTransports, ∃ i, i < w.calls ∧ (f i).1 = some t

/-- The invariant behind claim C20: shapes, factory, and no transport in play twice. -/
def Client.distinct (f : Factory) (s : Client) (done : List Nat) : Prop :=
  s.wellFormed ∧ s.w.serves f
    ∧ (∀ t, (s.inPlay done).count t ≤ 1)
    ∧ ∀ t ∈ s.inPlay done, ∃ i, i < s.w.calls ∧ (f i).1 = some t

/-- The factory never yields the same transport twice. -/
def Factory.distinct (f : Factory) : Prop :=
  ∀ i j t, (f i).1 = some t → (f j).1 = some t → i = j

/-- A factory whose every call fails. -/
def dialNever : Factory := fun _ => (none, some (.foreign "dial refused"))

/-- The state built by `NewChannelPool(0, 1, dialNever)`: live, empty buffer. -/
def poolOfNone : World := (NewChannelPool chanMax64 0 1 (some dialNever) closeOk).world

/-- The state left by pool `Close` on `poolOfOne`. -/
def poolShut : World := (channelPool.Close poolOfOne).world

/-! ## Close on a handle -/

/-- Claim C1, at `NewChannelPool(1, 1, dialOk)`: `Get` succeeds and empties the buffer,
and `Close` on the handle it returned (not marked unusable, buffer with room) panics
instead of returning nil: nothing is put back and `Len` stays 0. -/
theorem C1_close_of_handle_panics :
    ∃ w0 h w1,
      NewChannelPool chanMax64 1 1 (some dialOk) closeOk = .ok (.pool, none) w0 ∧
      channelPool.Len w0 = 1 ∧
      channelPool.Get w0 = .ok (h, none) w1 ∧
      channelPool.Len w1 = 0 ∧
      h.Close w1 = .panic w1 :=
  ⟨_, _, _, rfl, rfl, rfl, rfl, rfl⟩

/-- Claim C2, at `NewChannelPool(1, 1, dialOk)`: after `Get`, `MarkUnusable` and `Close`
on the handle, `Close` returns nil, the transport has not been closed at all, and it is
back in the buffer: `Len` went from 0 (after the `Get`) to 1. -/
theorem C2_unusable_handle_is_readmitted :
    ∃ w0 addr conn w1 w2,
      NewChannelPool chanMax64 1 1 (some dialOk) closeOk = .ok (.pool, none) w0 ∧
      channelPool.Get w0 = .ok (.poolConn addr conn .nilRef, none) w1 ∧
      channelPool.Len w1 = 0 ∧
      (Conn.poolConn addr conn .nilRef).Close (PoolConn.MarkUnusable addr w1) = .ok none w2 ∧
      channelPool.Len w2 = 1 ∧
      w2.closeLog = [] ∧
      (w2.pool.conns.map Chan.buf) = some [.transport 0] :=
  ⟨_, _, _, _, _, rfl, rfl, rfl, rfl, rfl, rfl, rfl⟩

/-- Claim C6, at `NewChannelPool(1, 2, dialOk)`: a handle obtained by `Get` and not
marked unusable, closed after the pool was shut down, panics; the transport behind it
(transport 0) is never closed. -/
theorem C6_close_after_shutdown_panics :
    ∃ w0 h w1 w2,
      NewChannelPool chanMax64 1 2 (some dialOk) closeOk = .ok (.pool, none) w0 ∧
      channelPool.Get w0 = .ok (h, none) w1 ∧
      h.underlying = some 0 ∧
      channelPool.Close w1 = .ok () w2 ∧
      h.Close w2 = .panic w2 ∧
      w2.closeLog = [] :=
  ⟨_, _, _, _, rfl, rfl, rfl, rfl, rfl, rfl⟩

/-! ## Invariants of the buffer -/

theorem Close_poolConn (addr : Nat) (conn : Conn) (c : PoolRef) (w : World) :
    (Conn.poolConn addr conn c).Close w
      = if w.unusable addr then
          if conn ≠ .nil then conn.Close w else .ok none w
        else
          channelPool.putUsing (Conn.CloseUnder .held conn) .free c conn w := by
  unfold Conn.Close
  rw [Conn.CloseUnder]

theorem CloseUnder_transport (mu : Mutex) (id : Nat) (w : World) :
    Conn.CloseUnder mu (.transport id) w = w.realClose id := by
  rw [Conn.CloseUnder]

theorem putUsing_bounded (n : Nat) (closeConn : World → Res (Option GoError))
    (hc : ∀ w, w.bounded n → (closeConn w).world.bounded n) (mu : Mutex)
    (c : PoolRef) (conn : Conn) (w : World) (hw : w.bounded n) :
    (channelPool.putUsing closeConn mu c conn w).world.bounded n := by
  unfold channelPool.putUsing
  split
  · exact hw
  · cases c with
    | nilRef => exact hw
    | pool =>
      cases mu with
      | held => exact hw
      | free =>
        dsimp only
        cases hch : w.pool.conns with
        | none => exact hc w hw
        | some ch =>
          dsimp only
          split
          · intro ch2 h2
            simp only [Res.world, World.send, Option.some.injEq] at h2
            subst h2
            have := hw ch hch
            simp only [List.length_append, List.length_singleton]
            omega
          · exact hc w hw

theorem CloseUnder_bounded (n : Nat) (conn : Conn) :
    ∀ (mu : Mutex) (w : World), w.bounded n → (Conn.CloseUnder mu conn w).world.bounded n := by
  induction conn with
  | nil => intro mu w hw; exact hw
  | transport id => intro mu w hw; exact hw
  | poolConn addr conn c ih =>
    intro mu w hw
    unfold Conn.CloseUnder
    split
    · split
      · exact ih mu w hw
      · exact hw
    · exact putUsing_bounded n _ (ih .held) mu c conn w hw

theorem Close_bounded (n : Nat) (conn : Conn) :
    ∀ w : World, w.bounded n → (conn.Close w).world.bounded n :=
  fun w hw => CloseUnder_bounded n conn .free w hw

theorem drain_bounded (n : Nat) (buf : List Conn) :
    ∀ w : World, w.bounded n → (channelPool.drain buf w).world.bounded n := by
  induction buf with
  | nil => intro w hw; exact hw
  | cons conn rest ih =>
    intro w hw
    have h1 := Close_bounded n conn w hw
    unfold channelPool.drain
    cases hr : conn.Close w with
    | ok v w1 => rw [hr] at h1; exact ih w1 h1
    | panic w1 => rw [hr] at h1; exact h1
    | blocked w1 => rw [hr] at h1; exact h1

theorem bounded_of_closed (n : Nat) (w : World) (h : w.pool.conns = none) : w.bounded n := by
  intro ch hch
  rw [h] at hch
  cases hch

theorem poolClose_bounded (n : Nat) (w : World) : (channelPool.Close w).world.bounded n := by
  unfold channelPool.Close
  cases w.pool.conns with
  | none => exact bounded_of_closed n _ rfl
  | some ch => exact drain_bounded n ch.buf _ (bounded_of_closed n _ rfl)

theorem Get_bounded (n : Nat) (w : World) (hw : w.bounded n) :
    (channelPool.Get w).world.bounded n := by
  unfold channelPool.Get
  cases hch : w.pool.conns with
  | none => exact hw
  | some ch =>
    have hb := hw ch hch
    dsimp only
    cases hbuf : ch.buf with
    | nil =>
      dsimp only
      cases w.pool.factory with
      | none => exact hw
      | some f =>
        dsimp only
        cases (f w.calls).2 with
        | some err => exact hw
        | none => exact hw
    | cons conn rest =>
      have hlen : rest.length ≤ n := by
        have := hb.2
        rw [hbuf] at this
        simp only [List.length_cons] at this
        omega
      dsimp only
      split
      · intro ch2 h2
        simp only [Res.world, Option.some.injEq] at h2
        subst h2
        exact ⟨hb.1, hlen⟩
      · intro ch2 h2
        simp only [Res.world, channelPool.wrapConn, World.alloc, Option.some.injEq] at h2
        subst h2
        exact ⟨hb.1, hlen⟩

theorem after_bounded {α : Type} (n : Nat) (s : Client) (r : Res α) (h : r.world.bounded n) :
    (s.after r).w.bounded n := by
  cases r <;> exact h

theorem step_bounded (n : Nat) (s : Client) (op : Op) (hs : s.w.bounded n) :
    (s.step op).w.bounded n := by
  cases op with
  | get =>
    have hg := Get_bounded n s.w hs
    simp only [Client.step]
    split
    · rename_i h w heq
      rw [heq] at hg
      exact hg
    · exact after_bounded n s _ hg
  | close i =>
    simp only [Client.step]
    split
    · rename_i h heq
      exact after_bounded n s _ (Close_bounded n h s.w hs)
    · exact hs
  | markUnusable i =>
    simp only [Client.step]
    split
    · exact hs
    · exact hs
  | poolClose => exact after_bounded n s _ (poolClose_bounded n s.w)
  | len => exact hs

theorem run_bounded (n : Nat) (ops : List Op) :
    ∀ s : Client, s.w.bounded n → (s.run ops).w.bounded n := by
  induction ops with
  | nil => intro s hs; exact hs
  | cons op rest ih => intro s hs; exact ih (s.step op) (step_bounded n s op hs)

theorem fill_bounded (n : Nat) (factory : Option Factory) (k : Nat) :
    ∀ w : World, w.bounded n → (NewChannelPool.fill factory k w).world.bounded n := by
  induction k with
  | zero => intro w hw; exact hw
  | succ k ih =>
    intro w hw
    unfold NewChannelPool.fill
    cases factory with
    | none => exact hw
    | some f =>
      dsimp only
      cases (f w.calls).2 with
      | some err =>
        dsimp only
        have := poolClose_bounded n { w with calls := w.calls + 1 }
        revert this
        cases channelPool.Close { w with calls := w.calls + 1 } <;> exact fun h => h
      | none =>
        dsimp only
        cases hch : w.pool.conns with
        | none => exact hw
        | some ch =>
          dsimp only
          split
          · apply ih
            intro ch2 h2
            simp only [World.send, World.alloc, Option.some.injEq] at h2
            subst h2
            have := hw ch hch
            simp only [List.length_append, List.length_singleton]
            omega
          · exact hw

theorem New_bounded (chanMax : Nat) (initialCap maxCap : Int) (factory : Option Factory)
    (cr : Nat → Nat → Option GoError) :
    (NewChannelPool chanMax initialCap maxCap factory cr).world.bounded maxCap.toNat := by
  unfold NewChannelPool
  split
  · exact bounded_of_closed _ _ rfl
  split
  · exact bounded_of_closed _ _ rfl
  · apply fill_bounded
    intro ch hch
    simp only [Option.some.injEq] at hch
    subst hch
    simp

theorem Len_le_of_bounded (n : Nat) (w : World) (hw : w.bounded n) : channelPool.Len w ≤ n := by
  unfold channelPool.Len channelPool.getConns
  cases hch : w.pool.conns with
  | none => exact Nat.zero_le n
  | some ch => exact (hw ch hch).2

/-- Claim C3: in every state that a client reaches from a successful
`NewChannelPool(initialCap, maxCap, factory)` by any sequence of `Get`, `Close` on a
returned handle (the only way to `put`), `MarkUnusable` and pool `Close`, `Len` is at most
`maxCap`. -/
theorem C3_len_le_maxCap (chanMax : Nat) (initialCap maxCap : Int) (factory : Option Factory)
    (cr : Nat → Nat → Option GoError) (w0 : World)
    (hnew : NewChannelPool chanMax initialCap maxCap factory cr = .ok (.pool, none) w0)
    (ops : List Op) :
    (channelPool.Len ((Client.init w0).run ops).w : Int) ≤ maxCap := by
  have h0 : w0.bounded maxCap.toNat := by
    have := New_bounded chanMax initialCap maxCap factory cr
    rw [hnew] at this
    exact this
  have h1 := Len_le_of_bounded _ _ (run_bounded _ ops (Client.init w0) h0)
  have hpos : 0 < maxCap := by
    by_contra hneg
    unfold NewChannelPool at hnew
    rw [if_pos (Or.inr (Or.inl (not_lt.mp hneg)))] at hnew
    cases hnew
  omega

theorem CloseUnder_closed (conn : Conn) :
    ∀ (mu : Mutex) (w : World), w.pool.conns = none →
      (Conn.CloseUnder mu conn w).world.pool.conns = none := by
  induction conn with
  | nil => intro mu w hw; exact hw
  | transport id => intro mu w hw; exact hw
  | poolConn addr conn c ih =>
    intro mu w hw
    unfold Conn.CloseUnder
    split
    · split
      · exact ih mu w hw
      · exact hw
    · unfold channelPool.putUsing
      split
      · exact hw
      · cases c with
        | nilRef => exact hw
        | pool =>
          cases mu with
          | held => exact hw
          | free =>
            dsimp only
            rw [hw]
            exact ih .held w hw

theorem Close_closed (conn : Conn) :
    ∀ w : World, w.pool.conns = none → (conn.Close w).world.pool.conns = none :=
  fun w hw => CloseUnder_closed conn .free w hw

theorem drain_closed (buf : List Conn) :
    ∀ w : World, w.pool.conns = none → (channelPool.drain buf w).world.pool.conns = none := by
  induction buf with
  | nil => intro w hw; exact hw
  | cons conn rest ih =>
    intro w hw
    have h1 := Close_closed conn w hw
    unfold channelPool.drain
    cases hr : conn.Close w with
    | ok v w1 => rw [hr] at h1; exact ih w1 h1
    | panic w1 => rw [hr] at h1; exact h1
    | blocked w1 => rw [hr] at h1; exact h1

theorem poolClose_closed (w : World) : (channelPool.Close w).world.pool.conns = none := by
  unfold channelPool.Close
  cases w.pool.conns with
  | none => rfl
  | some ch => exact drain_closed ch.buf _ rfl

theorem Get_of_closed (w : World) (hw : w.pool.conns = none) :
    channelPool.Get w = .ok (.nil, some .ErrClosed) w := by
  unfold channelPool.Get
  rw [hw]

theorem after_closed {α : Type} (s : Client) (r : Res α) (h : r.world.pool.conns = none) :
    (s.after r).w.pool.conns = none := by
  cases r <;> exact h

theorem step_closed (s : Client) (op : Op) (hs : s.w.pool.conns = none) :
    (s.step op).w.pool.conns = none := by
  cases op with
  | get =>
    simp only [Client.step]
    rw [Get_of_closed s.w hs]
    exact hs
  | close i =>
    simp only [Client.step]
    split
    · rename_i h heq
      exact after_closed s _ (Close_closed h s.w hs)
    · exact hs
  | markUnusable i =>
    simp only [Client.step]
    split
    · exact hs
    · exact hs
  | poolClose => exact after_closed s _ (poolClose_closed s.w)
  | len => exact hs

theorem run_closed (ops : List Op) :
    ∀ s : Client, s.w.pool.conns = none → (s.run ops).w.pool.conns = none := by
  induction ops with
  | nil => intro s hs; exact hs
  | cons op rest ih => intro s hs; exact ih (s.step op) (step_closed s op hs)

/-- Claim C5: once pool `Close` has been called, and whatever calls follow it, `Get`
returns `(nil, ErrClosed)` and leaves the whole state as it was; in particular the number
of factory invocations does not move. -/
theorem C5_get_after_close (s : Client) (ops : List Op) :
    channelPool.Get ((s.step .poolClose).run ops).w
        = .ok (.nil, some .ErrClosed) ((s.step .poolClose).run ops).w
      ∧ (channelPool.Get ((s.step .poolClose).run ops).w).world.calls
        = ((s.step .poolClose).run ops).w.calls := by
  have h := Get_of_closed _ (run_closed ops (s.step .poolClose)
    (after_closed s _ (poolClose_closed s.w)))
  refine ⟨h, ?_⟩
  rw [h]
  rfl

theorem Close_idleEntry (e : Conn) (he : e.idleEntry = true) (w : World)
    (hw : w.pool.conns = none) :
    ∃ r, e.Close w = .ok r { w with closeLog := w.closeLog ++ e.underlying.toList } := by
  match e, he with
  | .transport id, _ => exact ⟨_, rfl⟩
  | .poolConn addr (.transport id) .pool, _ =>
    rw [Close_poolConn]
    split
    · exact ⟨_, rfl⟩
    · unfold channelPool.putUsing
      simp only [reduceCtorEq, if_false, hw]
      exact ⟨_, rfl⟩
  | .poolConn addr .nil .pool, _ =>
    rw [Close_poolConn]
    split
    · refine ⟨none, ?_⟩
      simp [Conn.underlying]
    · refine ⟨some (.errorsNew "connection is nil. rejecting"), ?_⟩
      unfold channelPool.putUsing
      simp [Conn.underlying]

theorem drain_idle (buf : List Conn) :
    ∀ w : World, w.pool.conns = none → (∀ e ∈ buf, e.idleEntry = true) →
      channelPool.drain buf w
        = .ok () { w with closeLog := w.closeLog ++ buf.filterMap Conn.underlying } := by
  induction buf with
  | nil => intro w _ _; simp [channelPool.drain]
  | cons e rest ih =>
    intro w hw hb
    obtain ⟨r, hr⟩ := Close_idleEntry e (hb e (List.mem_cons_self _ _)) w hw
    unfold channelPool.drain
    rw [hr]
    dsimp only
    rw [ih _ (by exact hw) (fun x hx => hb x (List.mem_cons_of_mem _ hx))]
    cases hu : e.underlying <;> simp [List.filterMap_cons, hu]

theorem poolClose_idle (w : World) (ch : Chan) (hlive : w.pool.conns = some ch)
    (hidle : ∀ e ∈ ch.buf, e.idleEntry = true) :
    channelPool.Close w
      = .ok () { w with pool := { conns := none, factory := none },
                        closeLog := w.closeLog ++ ch.buf.filterMap Conn.underlying } := by
  unfold channelPool.Close
  rw [hlive]
  dsimp only
  rw [drain_idle ch.buf _ rfl hidle]

theorem New_of_fits (chanMax : Nat) (initialCap maxCap : Int) (factory : Option Factory)
    (cr : Nat → Nat → Option GoError)
    (hc : ¬ (initialCap < 0 ∨ maxCap ≤ 0 ∨ initialCap > maxCap))
    (hmax : maxCap ≤ (chanMax : Int)) :
    NewChannelPool chanMax initialCap maxCap factory cr
      = NewChannelPool.fill factory initialCap.toNat
          { World.start cr with
            pool := { conns := some { cap := maxCap.toNat, buf := [] }, factory := factory } } := by
  unfold NewChannelPool
  rw [if_neg hc, if_neg (by omega)]

theorem New_of_too_large (chanMax : Nat) (initialCap maxCap : Int) (factory : Option Factory)
    (cr : Nat → Nat → Option GoError)
    (hc : ¬ (initialCap < 0 ∨ maxCap ≤ 0 ∨ initialCap > maxCap))
    (hmax : (chanMax : Int) < maxCap) :
    NewChannelPool chanMax initialCap maxCap factory cr = .panic (World.start cr) := by
  unfold NewChannelPool
  rw [if_neg hc, if_pos (by omega)]

/-- Claim C4, as amended: on a live pool whose buffer holds values that the package put
there, with pairwise distinct transports behind them, pool `Close` returns normally; the
real closes it performs are exactly the transports behind the buffered values, in buffer
order; so the number of closes of a transport goes up by exactly one if it is behind a
buffered value and does not move otherwise; nothing else in the state changes; and the
fields `conns` and `factory` are nil afterwards. -/
theorem C4_pool_close_drains (w : World) (ch : Chan) (hlive : w.pool.conns = some ch)
    (hidle : ∀ e ∈ ch.buf, e.idleEntry = true)
    (hdistinct : (ch.buf.filterMap Conn.underlying).Nodup) :
    channelPool.Close w
        = .ok () { w with pool := { conns := none, factory := none },
                          closeLog := w.closeLog ++ ch.buf.filterMap Conn.underlying }
      ∧ ∀ id, (channelPool.Close w).world.closeLog.count id
          = w.closeLog.count id
            + (if id ∈ ch.buf.filterMap Conn.underlying then 1 else 0) := by
  have h := poolClose_idle w ch hlive hidle
  refine ⟨h, fun id => ?_⟩
  rw [h]
  simp only [Res.world, List.count_append, List.count_eq_of_nodup hdistinct]

theorem fill_error_shape (factory : Option Factory) (n : Nat) :
    ∀ (w w1 : World) (p : PoolRef) (err : GoError),
      NewChannelPool.fill factory n w = .ok (p, some err) w1 →
      p = .nilRef ∧ ∃ e, err = .fmtErrorf "factory is not able to fill the pool: " e := by
  induction n with
  | zero =>
    intro w w1 p err h
    simp [NewChannelPool.fill] at h
  | succ n ih =>
    intro w w1 p err h
    unfold NewChannelPool.fill at h
    cases factory with
    | none => simp at h
    | some f =>
      dsimp only at h
      cases hf : (f w.calls).2 with
      | some e =>
        rw [hf] at h
        dsimp only at h
        cases hc : channelPool.Close { w with calls := w.calls + 1 } with
        | ok v w2 =>
          rw [hc] at h
          simp only [Res.ok.injEq, Prod.mk.injEq, Option.some.injEq] at h
          exact ⟨h.1.1.symm, e, h.1.2.symm⟩
        | panic w2 => rw [hc] at h; simp at h
        | blocked w2 => rw [hc] at h; simp at h
      | none =>
        rw [hf] at h
        dsimp only at h
        cases hch : w.pool.conns with
        | none => rw [hch] at h; simp at h
        | some ch =>
          rw [hch] at h
          dsimp only at h
          split at h
          · exact ih _ _ _ _ h
          · simp at h

theorem fill_message_ne (s : String) :
    "factory is not able to fill the pool: " ++ s ≠ "invalid capacity settings" := by
  intro h
  have := congrArg String.data h
  simp at this

/-- Claim C7: `NewChannelPool(initialCap, maxCap, factory)` returns no pool and the error
`errors.New("invalid capacity settings")` exactly when `initialCap < 0`, `maxCap <= 0` or
`initialCap > maxCap`; no error it returns for other arguments even has that text; and in
the failing case the state is the start state, so the factory has not been invoked. -/
theorem C7_invalid_capacity (chanMax : Nat) (initialCap maxCap : Int) (factory : Option Factory)
    (cr : Nat → Nat → Option GoError) :
    ((∃ w, NewChannelPool chanMax initialCap maxCap factory cr
          = .ok (.nilRef, some (.errorsNew "invalid capacity settings")) w)
        ↔ (initialCap < 0 ∨ maxCap ≤ 0 ∨ initialCap > maxCap))
    ∧ ((∃ p err w t, NewChannelPool chanMax initialCap maxCap factory cr = .ok (p, some err) w
          ∧ err.Error t = "invalid capacity settings")
        ↔ (initialCap < 0 ∨ maxCap ≤ 0 ∨ initialCap > maxCap))
    ∧ ((initialCap < 0 ∨ maxCap ≤ 0 ∨ initialCap > maxCap) →
        NewChannelPool chanMax initialCap maxCap factory cr
          = .ok (.nilRef, some (.errorsNew "invalid capacity settings")) (World.start cr)
        ∧ (NewChannelPool chanMax initialCap maxCap factory cr).world.calls = 0) := by
  by_cases hc : initialCap < 0 ∨ maxCap ≤ 0 ∨ initialCap > maxCap
  · have h : NewChannelPool chanMax initialCap maxCap factory cr
        = .ok (.nilRef, some (.errorsNew "invalid capacity settings")) (World.start cr) := by
      unfold NewChannelPool
      rw [if_pos hc]
    refine ⟨⟨fun _ => hc, fun _ => ⟨_, h⟩⟩, ⟨fun _ => hc, fun _ => ⟨_, _, _, "", h, rfl⟩⟩, fun _ => ⟨h, ?_⟩⟩
    rw [h]
    rfl
  · refine ⟨⟨?_, fun h2 => absurd h2 hc⟩, ⟨?_, fun h2 => absurd h2 hc⟩, fun h2 => absurd h2 hc⟩
    · rintro ⟨w, hw⟩
      unfold NewChannelPool at hw
      rw [if_neg hc] at hw
      split at hw
      · cases hw
      · obtain ⟨_, e, he⟩ := fill_error_shape _ _ _ _ _ _ hw
        cases he
    · rintro ⟨p, err, w, t, hw, ht⟩
      unfold NewChannelPool at hw
      rw [if_neg hc] at hw
      split at hw
      · cases hw
      · obtain ⟨_, e, he⟩ := fill_error_shape _ _ _ _ _ _ hw
        subst he
        exact absurd ht (fill_message_ne _)

theorem fill_ok (f : Factory) (hf : ∀ i, (f i).2 = none) (n : Nat) :
    ∀ (w : World) (ch : Chan), w.pool.conns = some ch → ch.buf.length + n ≤ ch.cap →
      ∃ w1 ch1, NewChannelPool.fill (some f) n w = .ok (.pool, none) w1
        ∧ w1.calls = w.calls + n
        ∧ w1.pool.conns = some ch1
        ∧ ch1.cap = ch.cap
        ∧ ch1.buf.length = ch.buf.length + n
        ∧ w1.pool.factory = w.pool.factory
        ∧ w1.closeLog = w.closeLog := by
  induction n with
  | zero =>
    intro w ch hch _
    exact ⟨w, ch, rfl, rfl, hch, rfl, rfl, rfl, rfl⟩
  | succ n ih =>
    intro w ch hch hroom
    unfold NewChannelPool.fill
    dsimp only
    rw [hf w.calls]
    dsimp only
    rw [hch]
    dsimp only
    rw [if_pos (by omega)]
    obtain ⟨w1, ch1, h1, h2, h3, h4, h5, h6, h7⟩ := ih
      (World.send (World.alloc { w with calls := w.calls + 1 }) ch
        (.poolConn w.flags.length (Conn.ofTransport (f w.calls).1) .pool))
      { ch with buf := ch.buf ++ [.poolConn w.flags.length (Conn.ofTransport (f w.calls).1) .pool] }
      rfl (by simp only [List.length_append, List.length_singleton]; omega)
    refine ⟨w1, ch1, h1, ?_, h3, h4, ?_, ?_, ?_⟩
    · rw [h2]; simp only [World.send, World.alloc]; omega
    · rw [h5]; simp only [List.length_append, List.length_singleton]; omega
    · rw [h6]; rfl
    · rw [h7]; rfl

/-- Claim C8, as amended: for `0 <= initialCap <= maxCap`, `maxCap > 0`, `maxCap` within
the capacity `chanMax` that `make` can allocate, and a factory whose every call succeeds,
`NewChannelPool` returns the pool and a nil error, the factory has been invoked exactly
`initialCap` times, `Len` is exactly `initialCap`, the pool is live (buffer and factory
set), and no transport has been closed. -/
theorem C8_prewarm (chanMax : Nat) (initialCap maxCap : Int) (f : Factory)
    (cr : Nat → Nat → Option GoError)
    (h0 : 0 ≤ initialCap) (h1 : initialCap ≤ maxCap) (h2 : 0 < maxCap)
    (hmax : maxCap ≤ (chanMax : Int)) (hf : ∀ i, (f i).2 = none) :
    ∃ w, NewChannelPool chanMax initialCap maxCap (some f) cr = .ok (.pool, none) w
      ∧ (w.calls : Int) = initialCap
      ∧ (channelPool.Len w : Int) = initialCap
      ∧ w.pool.conns.isSome = true
      ∧ w.pool.factory.isSome = true
      ∧ w.closeLog = [] := by
  have hc : ¬ (initialCap < 0 ∨ maxCap ≤ 0 ∨ initialCap > maxCap) := by omega
  obtain ⟨w, ch1, hw, hcalls, hch, _, hlen, hfac, hlog⟩ := fill_ok f hf initialCap.toNat
    { World.start cr with
      pool := { conns := some { cap := maxCap.toNat, buf := [] }, factory := some f } }
    { cap := maxCap.toNat, buf := [] } rfl (by simp only [List.length_nil]; omega)
  refine ⟨w, ?_, ?_, ?_, ?_, ?_, ?_⟩
  · rw [New_of_fits chanMax initialCap maxCap (some f) cr hc hmax]
    exact hw
  · rw [hcalls]; simp only [World.start]; omega
  · unfold channelPool.Len channelPool.getConns
    rw [hch]
    dsimp only
    rw [hlen]
    simp only [List.length_nil]
    omega
  · rw [hch]; rfl
  · rw [hfac]; rfl
  · rw [hlog]; rfl

theorem underlying_ofTransport (x : Option Nat) : (Conn.ofTransport x).underlying = x := by
  cases x <;> rfl

theorem idleEntry_prewarmed (addr : Nat) (x : Option Nat) :
    (Conn.poolConn addr (Conn.ofTransport x) .pool).idleEntry = true := by
  cases x <;> rfl

theorem range_filterMap_shift (g : Nat → Option Nat) (j : Nat) :
    (List.range (j + 1)).filterMap g
      = (g 0).toList ++ (List.range j).filterMap (fun i => g (i + 1)) := by
  rw [List.range_succ_eq_map, List.filterMap_cons, List.filterMap_map]
  cases g 0 <;> rfl

theorem fill_fail (f : Factory) (e : GoError) (j : Nat) :
    ∀ (n : Nat) (w : World) (ch : Chan), j < n → w.pool.conns = some ch →
      ch.buf.length + j ≤ ch.cap → (∀ x ∈ ch.buf, x.idleEntry = true) →
      (∀ i, i < j → (f (w.calls + i)).2 = none) → (f (w.calls + j)).2 = some e →
      ∃ w1, NewChannelPool.fill (some f) n w
          = .ok (.nilRef, some (.fmtErrorf "factory is not able to fill the pool: " e)) w1
        ∧ w1.calls = w.calls + j + 1
        ∧ w1.closeLog = w.closeLog ++ ch.buf.filterMap Conn.underlying
            ++ (List.range j).filterMap (fun i => (f (w.calls + i)).1)
        ∧ w1.pool.conns = none
        ∧ w1.pool.factory = none := by
  induction j with
  | zero =>
    intro n w ch hn hch _ hidle _ hfail
    obtain ⟨n, rfl⟩ : ∃ m, n = m + 1 := ⟨n - 1, by omega⟩
    unfold NewChannelPool.fill
    dsimp only
    rw [Nat.add_zero] at hfail
    rw [hfail]
    dsimp only
    rw [poolClose_idle { w with calls := w.calls + 1 } ch hch hidle]
    exact ⟨_, rfl, rfl, by simp, rfl, rfl⟩
  | succ j ih =>
    intro n w ch hn hch hroom hidle hok hfail
    obtain ⟨n, rfl⟩ : ∃ m, n = m + 1 := ⟨n - 1, by omega⟩
    unfold NewChannelPool.fill
    dsimp only
    have h0 := hok 0 (Nat.succ_pos j)
    rw [Nat.add_zero] at h0
    rw [h0]
    dsimp only
    rw [hch]
    dsimp only
    rw [if_pos (by omega)]
    obtain ⟨w1, h1, h2, h3, h4, h5⟩ := ih n
      (World.send (World.alloc { w with calls := w.calls + 1 }) ch
        (.poolConn w.flags.length (Conn.ofTransport (f w.calls).1) .pool))
      { ch with buf := ch.buf ++ [.poolConn w.flags.length (Conn.ofTransport (f w.calls).1) .pool] }
      (by omega) rfl
      (by simp only [List.length_append, List.length_singleton]; omega)
      (by
        intro x hx
        rcases List.mem_append.mp hx with hx | hx
        · exact hidle x hx
        · rw [List.mem_singleton.mp hx]; exact idleEntry_prewarmed _ _)
      (by
        intro i hi
        have := hok (i + 1) (by omega)
        simpa [World.send, World.alloc, Nat.add_assoc, Nat.add_comm 1 i] using this)
      (by simpa [World.send, World.alloc, Nat.add_assoc, Nat.add_comm 1 j] using hfail)
    refine ⟨w1, h1, ?_, ?_, h4, h5⟩
    · rw [h2]; simp only [World.send, World.alloc]; omega
    · rw [h3, range_filterMap_shift (fun i => (f (w.calls + i)).1) j]
      simp only [World.send, World.alloc, List.filterMap_append, List.filterMap_cons,
        List.filterMap_nil, Conn.underlying, underlying_ofTransport, Nat.add_zero,
        List.append_assoc]
      congr 2
      cases hx : (f w.calls).1 with
      | none => simp [Nat.add_assoc, Nat.add_comm 1]
      | some id => simp [Nat.add_assoc, Nat.add_comm 1]

/-- Claim C9, as amended: for valid capacities with `maxCap` within the capacity `chanMax`
that `make` can allocate, and `1 <= k <= initialCap`, if the factory succeeds on its calls
`1..k-1` and fails with `e` on call `k`, then `NewChannelPool` returns no pool and an error
whose text is `"factory is not able to fill the pool: "` followed by the text of `e`; the
factory has been invoked exactly `k` times; the real closes performed are exactly the
transports of the `k-1` connections created, one close each, in creation order; and the
pool that was being built is left closed. -/
theorem C9_prewarm_failure (chanMax : Nat) (initialCap maxCap : Int) (f : Factory)
    (cr : Nat → Nat → Option GoError) (k : Nat) (e : GoError)
    (h0 : 0 ≤ initialCap) (h1 : initialCap ≤ maxCap) (h2 : 0 < maxCap)
    (hmax : maxCap ≤ (chanMax : Int))
    (hk1 : 1 ≤ k) (hk : (k : Int) ≤ initialCap)
    (hok : ∀ i, i + 1 < k → (f i).2 = none) (hfail : (f (k - 1)).2 = some e) :
    ∃ err w, NewChannelPool chanMax initialCap maxCap (some f) cr = .ok (.nilRef, some err) w
      ∧ (∀ t, err.Error t = "factory is not able to fill the pool: " ++ e.Error t)
      ∧ w.calls = k
      ∧ w.closeLog = (List.range (k - 1)).filterMap (fun i => (f i).1)
      ∧ w.pool.conns = none
      ∧ w.pool.factory = none := by
  have hc : ¬ (initialCap < 0 ∨ maxCap ≤ 0 ∨ initialCap > maxCap) := by omega
  obtain ⟨w, hw, hcalls, hlog, hconns, hfac⟩ := fill_fail f e (k - 1) initialCap.toNat
    { World.start cr with
      pool := { conns := some { cap := maxCap.toNat, buf := [] }, factory := some f } }
    { cap := maxCap.toNat, buf := [] } (by omega) rfl
    (by simp only [List.length_nil]; omega)
    (by intro x hx; cases hx)
    (by intro i hi; simpa [World.start] using hok i (by omega))
    (by simpa [World.start] using hfail)
  refine ⟨.fmtErrorf "factory is not able to fill the pool: " e, w, ?_, ?_, ?_, ?_, hconns, hfac⟩
  · rw [New_of_fits chanMax initialCap maxCap (some f) cr hc hmax]
    exact hw
  · intro t; rfl
  · rw [hcalls]; simp only [World.start]; omega
  · rw [hlog]; simp [World.start]

theorem Get_of_idle_head (w : World) (ch : Chan) (conn : Conn) (rest : List Conn)
    (hch : w.pool.conns = some ch) (hbuf : ch.buf = conn :: rest) (hconn : conn ≠ .nil) :
    channelPool.Get w
      = .ok (.poolConn w.flags.length conn .nilRef, none)
          { w with pool := { w.pool with conns := some { ch with buf := rest } },
                   flags := w.flags ++ [false] } := by
  unfold channelPool.Get
  rw [hch]
  dsimp only
  rw [hbuf]
  dsimp only
  rw [if_neg hconn]
  rfl

theorem Get_of_empty (w : World) (ch : Chan) (f : Factory)
    (hch : w.pool.conns = some ch) (hbuf : ch.buf = []) (hfac : w.pool.factory = some f)
    (hf : (f w.calls).2 = none) :
    channelPool.Get w
      = .ok (.poolConn (w.flags.length + 1)
              (.poolConn w.flags.length (Conn.ofTransport (f w.calls).1) .pool) .nilRef, none)
          { w with calls := w.calls + 1, flags := w.flags ++ [false] ++ [false] } := by
  unfold channelPool.Get
  rw [hch]
  dsimp only
  rw [hbuf]
  dsimp only
  rw [hfac]
  dsimp only
  rw [hf]
  simp [channelPool.wrapConn, World.alloc]

theorem getMany_ok (f : Factory) (hf : ∀ i, (f i).2 = none) (n : Nat) :
    ∀ (w : World) (ch : Chan), w.pool.conns = some ch → w.pool.factory = some f →
      (∀ x ∈ ch.buf, x ≠ Conn.nil) →
      ∃ rs w1, channelPool.getMany n w = .ok rs w1
        ∧ rs.length = n
        ∧ (∀ r ∈ rs, r.1 ≠ Conn.nil ∧ r.2 = none)
        ∧ w1.calls = w.calls + (n - ch.buf.length)
        ∧ channelPool.Len w1 = ch.buf.length - n := by
  induction n with
  | zero =>
    intro w ch hch _ _
    refine ⟨[], w, rfl, rfl, ?_, by omega, ?_⟩
    · intro r hr; cases hr
    · simp [channelPool.Len, channelPool.getConns, hch]
  | succ n ih =>
    intro w ch hch hfac hnn
    unfold channelPool.getMany
    cases hbuf : ch.buf with
    | nil =>
      rw [Get_of_empty w ch f hch hbuf hfac (hf _)]
      dsimp only
      obtain ⟨rs, w1, h1, h2, h3, h4, h5⟩ := ih
        { w with calls := w.calls + 1, flags := w.flags ++ [false] ++ [false] } ch hch hfac hnn
      rw [h1]
      refine ⟨_, w1, rfl, by simp [h2], ?_, ?_, ?_⟩
      · intro r hr
        rcases List.mem_cons.mp hr with hr | hr
        · subst hr; exact ⟨by simp, rfl⟩
        · exact h3 r hr
      · rw [h4, hbuf]; simp only [List.length_nil]; omega
      · rw [h5, hbuf]; simp
    | cons conn rest =>
      have hconn : conn ≠ .nil := hnn conn (by rw [hbuf]; exact List.mem_cons_self _ _)
      rw [Get_of_idle_head w ch conn rest hch hbuf hconn]
      dsimp only
      obtain ⟨rs, w1, h1, h2, h3, h4, h5⟩ := ih
        { w with pool := { w.pool with conns := some { ch with buf := rest } },
                 flags := w.flags ++ [false] }
        { ch with buf := rest } rfl hfac
        (fun x hx => hnn x (by rw [hbuf]; exact List.mem_cons_of_mem _ hx))
      rw [h1]
      refine ⟨_, w1, rfl, by simp [h2], ?_, ?_, ?_⟩
      · intro r hr
        rcases List.mem_cons.mp hr with hr | hr
        · subst hr; exact ⟨by simp, rfl⟩
        · exact h3 r hr
      · rw [h4]; simp only [List.length_cons]; omega
      · rw [h5]; simp only [List.length_cons]; omega

/-- Claim C10: on a live pool whose buffer holds `m` (non-nil) connections and whose
factory always succeeds, `n` consecutive `Get` calls all return a non-nil handle and a nil
error, invoke the factory exactly `n - m` times (0 when `n <= m`) and leave `Len` at
`m - n` (0 when `m <= n`). -/
theorem C10_consecutive_gets (f : Factory) (hf : ∀ i, (f i).2 = none) (n m : Nat)
    (w : World) (ch : Chan) (hlive : w.pool.conns = some ch) (hfac : w.pool.factory = some f)
    (hm : ch.buf.length = m) (hconn : ∀ x ∈ ch.buf, x ≠ Conn.nil) :
    ∃ rs w1, channelPool.getMany n w = .ok rs w1
      ∧ rs.length = n
      ∧ (∀ r ∈ rs, r.1 ≠ Conn.nil ∧ r.2 = none)
      ∧ w1.calls = w.calls + (n - m)
      ∧ channelPool.Len w1 = m - n := by
  subst hm
  exact getMany_ok f hf n w ch hlive hfac hconn

theorem idle_of_closed (w : World) (h : w.pool.conns = none) : w.idle := by
  intro ch hch
  rw [h] at hch
  cases hch

theorem idleEntry_ne_nil (e : Conn) (he : e.idleEntry = true) : e ≠ .nil := by
  intro h
  subst h
  cases he

theorem put_transport_idle (closeConn : World → Res (Option GoError))
    (hc : ∀ w, w.idle → (closeConn w).world.idle) (id : Nat) (w : World) (hw : w.idle) :
    (channelPool.putUsing closeConn .free .pool (.transport id) w).world.idle := by
  unfold channelPool.putUsing
  rw [if_neg (by simp)]
  dsimp only
  cases hch : w.pool.conns with
  | none => exact hc w hw
  | some ch =>
    dsimp only
    split
    · intro ch2 h2 e he
      simp only [Res.world, World.send, Option.some.injEq] at h2
      subst h2
      rcases List.mem_append.mp he with he | he
      · exact hw ch hch e he
      · rw [List.mem_singleton.mp he]; rfl
    · exact hc w hw

theorem Close_idleEntry_idle (e : Conn) (he : e.idleEntry = true) (w : World) (hw : w.idle) :
    (e.Close w).world.idle := by
  match e, he with
  | .transport id, _ => exact hw
  | .poolConn addr (.transport id) .pool, _ =>
    rw [Close_poolConn]
    split
    · exact hw
    · exact put_transport_idle (Conn.CloseUnder .held (.transport id)) (fun _ h1 => h1) id w hw
  | .poolConn addr .nil .pool, _ =>
    rw [Close_poolConn]
    split
    · exact hw
    · exact hw

theorem Close_handle_idle (h : Conn) (hh : h.isHandle = true) (w : World) (hw : w.idle) :
    (h.Close w).world.idle := by
  match h, hh with
  | .poolConn addr conn .nilRef, hc =>
    have hne : conn ≠ .nil := idleEntry_ne_nil conn hc
    rw [Close_poolConn]
    by_cases hu : w.unusable addr = true
    · simp only [hu, if_true, ne_eq, hne, not_false_eq_true]
      exact Close_idleEntry_idle conn hc w hw
    · simp only [hu, channelPool.putUsing, hne, if_false]
      exact hw

theorem Get_idle (w : World) (hw : w.idle) :
    (channelPool.Get w).world.idle
      ∧ ∀ h w1, channelPool.Get w = .ok (h, none) w1 → h.isHandle = true := by
  unfold channelPool.Get
  cases hch : w.pool.conns with
  | none => exact ⟨hw, fun h w1 hg => by simp at hg⟩
  | some ch =>
    dsimp only
    cases hbuf : ch.buf with
    | nil =>
      dsimp only
      cases w.pool.factory with
      | none => exact ⟨hw, fun h w1 hg => by simp at hg⟩
      | some f =>
        dsimp only
        cases (f w.calls).2 with
        | some err => exact ⟨hw, fun h w1 hg => by simp at hg⟩
        | none =>
          refine ⟨hw, fun h w1 hg => ?_⟩
          simp only [channelPool.wrapConn, Res.ok.injEq, Prod.mk.injEq, and_true] at hg
          rw [← hg.1]
          exact idleEntry_prewarmed _ _
    | cons conn rest =>
      have hrest : ∀ ch2 : Chan, ch2 = { ch with buf := rest } → ∀ e ∈ ch2.buf, e.idleEntry = true := by
        intro ch2 h2 e he
        subst h2
        exact hw ch hch e (by rw [hbuf]; exact List.mem_cons_of_mem _ he)
      dsimp only
      split
      · refine ⟨?_, fun h w1 hg => by simp at hg⟩
        intro ch2 h2
        simp only [Res.world, Option.some.injEq] at h2
        exact hrest ch2 h2.symm
      · refine ⟨?_, fun h w1 hg => ?_⟩
        · intro ch2 h2
          simp only [Res.world, channelPool.wrapConn, World.alloc, Option.some.injEq] at h2
          exact hrest ch2 h2.symm
        · simp only [channelPool.wrapConn, Res.ok.injEq, Prod.mk.injEq, and_true] at hg
          rw [← hg.1]
          exact hw ch hch conn (by rw [hbuf]; exact List.mem_cons_self _ _)

theorem after_idle {α : Type} (s : Client) (r : Res α) (h : r.world.idle) :
    (s.after r).w.idle := by
  cases r <;> exact h

theorem after_handles {α : Type} (s : Client) (r : Res α) : (s.after r).handles = s.handles := by
  cases r <;> rfl

theorem step_wellFormed (s : Client) (op : Op) (hs : s.wellFormed) : (s.step op).wellFormed := by
  obtain ⟨hw, hh⟩ := hs
  cases op with
  | get =>
    have hg := Get_idle s.w hw
    simp only [Client.step]
    split
    · rename_i h w1 heq
      refine ⟨?_, ?_⟩
      · have := hg.1
        rw [heq] at this
        exact this
      · intro x hx
        rcases List.mem_append.mp hx with hx | hx
        · exact hh x hx
        · rw [List.mem_singleton.mp hx]; exact hg.2 h w1 heq
    · exact ⟨after_idle s _ hg.1, by rw [after_handles]; exact hh⟩
  | close i =>
    simp only [Client.step]
    split
    · rename_i h heq
      have hmem : h ∈ s.handles := List.get?_mem heq
      exact ⟨after_idle s _ (Close_handle_idle h (hh h hmem) s.w hw), by rw [after_handles]; exact hh⟩
    · exact ⟨hw, hh⟩
  | markUnusable i =>
    simp only [Client.step]
    split
    · exact ⟨hw, hh⟩
    · exact ⟨hw, hh⟩
  | poolClose =>
    exact ⟨after_idle s _ (idle_of_closed _ (poolClose_closed s.w)), by
      simp only [Client.step]; rw [after_handles]; exact hh⟩
  | len => exact ⟨hw, hh⟩

theorem run_wellFormed (ops : List Op) :
    ∀ s : Client, s.wellFormed → (s.run ops).wellFormed := by
  induction ops with
  | nil => intro s hs; exact hs
  | cons op rest ih => intro s hs; exact ih (s.step op) (step_wellFormed s op hs)

theorem fill_idle (factory : Option Factory) (k : Nat) :
    ∀ w : World, w.idle → (NewChannelPool.fill factory k w).world.idle := by
  induction k with
  | zero => intro w hw; exact hw
  | succ k ih =>
    intro w hw
    unfold NewChannelPool.fill
    cases factory with
    | none => exact hw
    | some f =>
      dsimp only
      cases (f w.calls).2 with
      | some err =>
        dsimp only
        have := idle_of_closed _ (poolClose_closed { w with calls := w.calls + 1 })
        revert this
        cases channelPool.Close { w with calls := w.calls + 1 } <;> exact fun h => h
      | none =>
        dsimp only
        cases hch : w.pool.conns with
        | none => exact hw
        | some ch =>
          dsimp only
          split
          · apply ih
            intro ch2 h2 e he
            simp only [World.send, World.alloc, Option.some.injEq] at h2
            subst h2
            rcases List.mem_append.mp he with he | he
            · exact hw ch hch e he
            · rw [List.mem_singleton.mp he]; exact idleEntry_prewarmed _ _
          · exact hw

theorem New_idle (chanMax : Nat) (initialCap maxCap : Int) (factory : Option Factory)
    (cr : Nat → Nat → Option GoError) :
    (NewChannelPool chanMax initialCap maxCap factory cr).world.idle := by
  unfold NewChannelPool
  split
  · exact idle_of_closed _ rfl
  split
  · exact idle_of_closed _ rfl
  · apply fill_idle
    intro ch hch e he
    simp only [Option.some.injEq] at hch
    subst hch
    cases he

theorem reachable_wellFormed (chanMax : Nat) (initialCap maxCap : Int) (factory : Option Factory)
    (cr : Nat → Nat → Option GoError) (w0 : World)
    (hnew : NewChannelPool chanMax initialCap maxCap factory cr = .ok (.pool, none) w0)
    (ops : List Op) : ((Client.init w0).run ops).wellFormed := by
  apply run_wellFormed
  refine ⟨?_, fun h hh => by cases hh⟩
  have := New_idle chanMax initialCap maxCap factory cr
  rw [hnew] at this
  exact this

theorem unusable_alloc (w : World) : w.alloc.unusable w.flags.length = false := by
  simp [World.unusable, World.alloc, List.getD_eq_getElem?_getD]

theorem Close_fresh_wrap (w : World) (conn : Conn) (hne : conn ≠ .nil) :
    (channelPool.wrapConn conn w).1.Close (channelPool.wrapConn conn w).2
      = .panic (channelPool.wrapConn conn w).2 := by
  simp only [channelPool.wrapConn, Close_poolConn, unusable_alloc, channelPool.putUsing, hne,
    if_false, Bool.false_eq_true]

theorem Get_handle_Close_panics (w w1 : World) (h : Conn)
    (hg : channelPool.Get w = .ok (h, none) w1) : h.Close w1 = .panic w1 := by
  unfold channelPool.Get at hg
  cases hch : w.pool.conns with
  | none => rw [hch] at hg; simp at hg
  | some ch =>
    rw [hch] at hg
    dsimp only at hg
    cases hbuf : ch.buf with
    | nil =>
      rw [hbuf] at hg
      dsimp only at hg
      cases hfac : w.pool.factory with
      | none => rw [hfac] at hg; simp at hg
      | some f =>
        rw [hfac] at hg
        dsimp only at hg
        cases hf : (f w.calls).2 with
        | some err => rw [hf] at hg; simp at hg
        | none =>
          rw [hf] at hg
          simp only [Res.ok.injEq, Prod.mk.injEq, and_true] at hg
          obtain ⟨rfl, rfl⟩ := hg
          exact Close_fresh_wrap _ _ (by simp)
    | cons conn rest =>
      rw [hbuf] at hg
      dsimp only at hg
      split at hg
      · simp at hg
      · rename_i hne
        simp only [Res.ok.injEq, Prod.mk.injEq, and_true] at hg
        obtain ⟨rfl, rfl⟩ := hg
        exact Close_fresh_wrap _ _ hne

/-! ## The return path, shutdown and the handles -/

theorem CloseUnder_pool_full (conn : Conn) :
    ∀ (mu : Mutex) (w : World), (∀ ch, w.pool.conns = some ch → ch.cap ≤ ch.buf.length) →
      (Conn.CloseUnder mu conn w).world.pool = w.pool := by
  induction conn with
  | nil => intro mu w _; rfl
  | transport id => intro mu w _; rfl
  | poolConn addr conn c ih =>
    intro mu w hw
    unfold Conn.CloseUnder
    split
    · split
      · exact ih mu w hw
      · rfl
    · unfold channelPool.putUsing
      split
      · rfl
      · cases c with
        | nilRef => rfl
        | pool =>
          cases mu with
          | held => rfl
          | free =>
            dsimp only
            cases hch : w.pool.conns with
            | none => exact ih .held w hw
            | some ch =>
              dsimp only
              have := hw ch hch
              rw [if_neg (by omega)]
              exact ih .held w hw

theorem Close_pool_full (conn : Conn) :
    ∀ w : World, (∀ ch, w.pool.conns = some ch → ch.cap ≤ ch.buf.length) →
      (conn.Close w).world.pool = w.pool :=
  fun w hw => CloseUnder_pool_full conn .free w hw

theorem CloseUnder_calls (conn : Conn) :
    ∀ (mu : Mutex) (w : World), (Conn.CloseUnder mu conn w).world.calls = w.calls := by
  induction conn with
  | nil => intro mu w; rfl
  | transport id => intro mu w; rfl
  | poolConn addr conn c ih =>
    intro mu w
    unfold Conn.CloseUnder
    split
    · split
      · exact ih mu w
      · rfl
    · unfold channelPool.putUsing
      split
      · rfl
      · cases c with
        | nilRef => rfl
        | pool =>
          cases mu with
          | held => rfl
          | free =>
            dsimp only
            cases hch : w.pool.conns with
            | none => exact ih .held w
            | some ch =>
              dsimp only
              split
              · rfl
              · exact ih .held w

theorem Close_calls (conn : Conn) :
    ∀ w : World, (conn.Close w).world.calls = w.calls :=
  fun w => CloseUnder_calls conn .free w

theorem drain_pool_closed (buf : List Conn) :
    ∀ w : World, w.pool.conns = none →
      (channelPool.drain buf w).world.pool = w.pool
        ∧ (channelPool.drain buf w).world.calls = w.calls := by
  induction buf with
  | nil => intro w _; exact ⟨rfl, rfl⟩
  | cons conn rest ih =>
    intro w hw
    have hfull : ∀ ch, w.pool.conns = some ch → ch.cap ≤ ch.buf.length := by
      intro ch hch; rw [hw] at hch; cases hch
    have h1 := Close_pool_full conn w hfull
    have h2 := Close_calls conn w
    unfold channelPool.drain
    cases hr : conn.Close w with
    | ok v w1 =>
      rw [hr] at h1 h2
      dsimp only [Res.world] at h1 h2
      dsimp only
      have := ih w1 (by rw [h1]; exact hw)
      rw [h1, h2] at this
      exact this
    | panic w1 => rw [hr] at h1 h2; exact ⟨h1, h2⟩
    | blocked w1 => rw [hr] at h1 h2; exact ⟨h1, h2⟩

theorem poolClose_pool (w : World) :
    (channelPool.Close w).world.pool = { conns := none, factory := none }
      ∧ (channelPool.Close w).world.calls = w.calls := by
  unfold channelPool.Close
  cases w.pool.conns with
  | none => exact ⟨rfl, rfl⟩
  | some ch => exact drain_pool_closed ch.buf _ rfl

theorem poolClose_of_closed (w : World) (hp : w.pool = { conns := none, factory := none }) :
    channelPool.Close w = .ok () w := by
  unfold channelPool.Close
  rw [hp]
  dsimp only
  rw [← hp]

theorem put_of_room (w : World) (ch : Chan) (x : Conn)
    (hlive : w.pool.conns = some ch) (hx : x ≠ Conn.nil) (hroom : ch.buf.length < ch.cap) :
    channelPool.put .pool x w
      = .ok none { w with pool := { w.pool with
                                    conns := some { ch with buf := ch.buf ++ [x] } } } := by
  unfold channelPool.put channelPool.putUsing
  rw [if_neg hx]
  dsimp only
  rw [hlive]
  dsimp only
  rw [if_pos hroom]
  rfl

theorem put_of_no_room (w : World) (x : Conn) (hx : x ≠ Conn.nil)
    (hfull : ∀ ch, w.pool.conns = some ch → ch.cap ≤ ch.buf.length) :
    channelPool.put .pool x w = Conn.CloseUnder .held x w
      ∧ (channelPool.put .pool x w).world.pool = w.pool
      ∧ (∀ id, x = Conn.transport id →
          channelPool.put .pool x w
            = .ok (w.closeResult id (w.closeLog.count id))
                { w with closeLog := w.closeLog ++ [id] })
      ∧ ∀ addr y, x = Conn.poolConn addr y .pool → w.unusable addr = false → y ≠ Conn.nil →
          channelPool.put .pool x w = .blocked w := by
  have hput : channelPool.put .pool x w = Conn.CloseUnder .held x w := by
    unfold channelPool.put channelPool.putUsing
    rw [if_neg hx]
    dsimp only
    cases hch : w.pool.conns with
    | none => rfl
    | some ch =>
      dsimp only
      have := hfull ch hch
      rw [if_neg (by omega)]
  refine ⟨hput, ?_, ?_, ?_⟩
  · rw [hput]
    exact CloseUnder_pool_full x .held w hfull
  · intro id hid
    rw [hput, hid]
    rfl
  · intro addr y hxy hu hy
    rw [hput, hxy]
    simp only [Conn.CloseUnder, hu, channelPool.putUsing, hy, if_false, Bool.false_eq_true]

/-- Claim C11, as amended: on a live pool, `put(x)` with `x` non-nil appends `x` at the
end of the buffer, closes nothing and returns nil when the buffer has room; when the
buffer is full `put` makes the one call `x.Close()` while it holds the mutex of the pool
and ends as that call ends, with the pool, buffer included, unchanged: for a transport
this is one real close, whose result `put` returns; for a `*PoolConn` of the same pool
that is not marked unusable and wraps a connection, the call enters `put` again and `put`
never returns. -/
theorem C11_put_on_live_pool (w : World) (ch : Chan) (x : Conn)
    (hlive : w.pool.conns = some ch) (hx : x ≠ Conn.nil) :
    (ch.buf.length < ch.cap →
        channelPool.put .pool x w
          = .ok none { w with pool := { w.pool with
                                        conns := some { ch with buf := ch.buf ++ [x] } } })
      ∧ (ch.cap ≤ ch.buf.length →
          channelPool.put .pool x w = Conn.CloseUnder .held x w
            ∧ (channelPool.put .pool x w).world.pool = w.pool
            ∧ (∀ id, x = Conn.transport id →
                channelPool.put .pool x w
                  = .ok (w.closeResult id (w.closeLog.count id))
                      { w with closeLog := w.closeLog ++ [id] })
            ∧ ∀ addr y, x = Conn.poolConn addr y .pool → w.unusable addr = false →
                y ≠ Conn.nil → channelPool.put .pool x w = .blocked w) := by
  refine ⟨put_of_room w ch x hlive hx, fun hfull => put_of_no_room w x hx ?_⟩
  intro ch2 h2
  rw [hlive] at h2
  cases h2
  exact hfull

/-- Claim C12, as amended: on a pool that has been closed (`conns` nil), `put(x)` with `x`
non-nil makes the one call `x.Close()` while it holds the mutex of the pool and ends as
that call ends; the pool is unchanged: nothing is enqueued and it stays closed; for a
transport this is one real close, whose result is what `put` returns; for a `*PoolConn`
of the same pool that is not marked unusable and wraps a connection, the call enters
`put` again and `put` never returns. -/
theorem C12_put_on_closed_pool (w : World) (x : Conn)
    (hclosed : w.pool.conns = none) (hx : x ≠ Conn.nil) :
    channelPool.put .pool x w = Conn.CloseUnder .held x w
      ∧ (channelPool.put .pool x w).world.pool = w.pool
      ∧ (channelPool.put .pool x w).world.pool.conns = none
      ∧ (∀ id, x = Conn.transport id →
          channelPool.put .pool x w
            = .ok (w.closeResult id (w.closeLog.count id))
                { w with closeLog := w.closeLog ++ [id] })
      ∧ ∀ addr y, x = Conn.poolConn addr y .pool → w.unusable addr = false →
          y ≠ Conn.nil → channelPool.put .pool x w = .blocked w := by
  have h := put_of_no_room w x hx (by
    intro ch2 h2
    rw [hclosed] at h2
    cases h2)
  refine ⟨h.1, h.2.1, ?_, h.2.2.1, h.2.2.2⟩
  rw [h.2.1]
  exact hclosed

/-- Claim C13: pool `Close` is idempotent: in the state left by a first `Close`, whatever
its outcome, a second `Close` returns at once and leaves the whole state as it is (no
connection closed, nothing changed); and `Close` on a live pool with an empty buffer
closes no connection: it only sets `conns` and `factory` to nil. -/
theorem C13_close_is_idempotent (w : World) :
    channelPool.Close (channelPool.Close w).world = .ok () (channelPool.Close w).world
      ∧ ∀ ch, w.pool.conns = some ch → ch.buf = [] →
          channelPool.Close w = .ok () { w with pool := { conns := none, factory := none } } := by
  refine ⟨poolClose_of_closed _ (poolClose_pool w).1, ?_⟩
  intro ch hch hbuf
  unfold channelPool.Close
  rw [hch]
  dsimp only
  rw [hbuf]
  rfl

/-- Claim C14: on a live pool with an empty buffer, if the factory call fails with `e`
then `Get` returns `(nil, e)`, the very error of the factory, and the pool is as before:
live, buffer empty; only the count of factory invocations has moved by one. -/
theorem C14_get_factory_error (w : World) (ch : Chan) (f : Factory) (e : GoError)
    (hlive : w.pool.conns = some ch) (hbuf : ch.buf = []) (hfac : w.pool.factory = some f)
    (hf : (f w.calls).2 = some e) :
    channelPool.Get w = .ok (.nil, some e) { w with calls := w.calls + 1 }
      ∧ (channelPool.Get w).world.pool = w.pool
      ∧ channelPool.Len (channelPool.Get w).world = 0 := by
  have hg : channelPool.Get w = .ok (.nil, some e) { w with calls := w.calls + 1 } := by
    unfold channelPool.Get
    rw [hlive]
    dsimp only
    rw [hbuf]
    dsimp only
    rw [hfac]
    dsimp only
    rw [hf]
  refine ⟨hg, ?_, ?_⟩
  · rw [hg]; rfl
  · rw [hg]
    simp [channelPool.Len, channelPool.getConns, Res.world, hlive, hbuf]

/-- Claim C15: `put(nil)` returns the error `errors.New("connection is nil. rejecting")`
and leaves the whole state as it is (no close, same buffer, same pool), whatever the
state of the pool, and even on a nil receiver. -/
theorem C15_put_nil (c : PoolRef) (w : World) :
    channelPool.put c .nil w
      = .ok (some (.errorsNew "connection is nil. rejecting")) w := by
  unfold channelPool.put channelPool.putUsing
  rw [if_pos rfl]

/-- Claim C17: the buffer is first-in first-out: on a live pool whose buffer is
`c1 :: rest` (with `c1` a connection, not nil), `Get` returns a handle that wraps `c1`,
leaves `rest` in the buffer and does not invoke the factory; and when `put(x)` enqueues,
`x` goes after the last buffered value. -/
theorem C17_buffer_is_fifo (w : World) (ch : Chan) (c1 : Conn) (rest : List Conn)
    (hlive : w.pool.conns = some ch) (hbuf : ch.buf = c1 :: rest) (hc1 : c1 ≠ Conn.nil) :
    channelPool.Get w
        = .ok (.poolConn w.flags.length c1 .nilRef, none)
            { w with pool := { w.pool with conns := some { ch with buf := rest } },
                     flags := w.flags ++ [false] }
      ∧ (channelPool.Get w).world.calls = w.calls
      ∧ ∀ x, x ≠ Conn.nil → ch.buf.length < ch.cap →
          channelPool.put .pool x w
            = .ok none { w with pool := { w.pool with
                                          conns := some { ch with buf := c1 :: (rest ++ [x]) } } } := by
  have hg := Get_of_idle_head w ch c1 rest hlive hbuf hc1
  refine ⟨hg, by rw [hg]; rfl, ?_⟩
  intro x hx hroom
  unfold channelPool.put channelPool.putUsing
  rw [if_neg hx]
  dsimp only
  rw [hlive]
  dsimp only
  rw [if_pos hroom]
  simp [World.send, hbuf]

theorem CloseUnder_effect (conn : Conn) :
    ∀ (mu : Mutex) (w : World), (Conn.CloseUnder mu conn w).world.pool = w.pool
      ∨ ∃ ch x, w.pool.conns = some ch ∧ ch.buf.length < ch.cap ∧
          (Conn.CloseUnder mu conn w).world.pool
            = { w.pool with conns := some { ch with buf := ch.buf ++ [x] } } := by
  induction conn with
  | nil => intro mu w; exact Or.inl rfl
  | transport id => intro mu w; exact Or.inl rfl
  | poolConn addr conn c ih =>
    intro mu w
    unfold Conn.CloseUnder
    split
    · split
      · exact ih mu w
      · exact Or.inl rfl
    · unfold channelPool.putUsing
      split
      · exact Or.inl rfl
      · cases c with
        | nilRef => exact Or.inl rfl
        | pool =>
          cases mu with
          | held => exact Or.inl rfl
          | free =>
            dsimp only
            cases hch : w.pool.conns with
            | none =>
              dsimp only
              have := ih .held w
              rw [hch] at this
              exact this
            | some ch =>
              dsimp only
              split
              · rename_i hroom
                exact Or.inr ⟨ch, conn, rfl, hroom, rfl⟩
              · have := ih .held w
                rw [hch] at this
                exact this

theorem Close_effect (conn : Conn) :
    ∀ w : World, (conn.Close w).world.pool = w.pool
      ∨ ∃ ch x, w.pool.conns = some ch ∧ ch.buf.length < ch.cap ∧
          (conn.Close w).world.pool
            = { w.pool with conns := some { ch with buf := ch.buf ++ [x] } } :=
  fun w => CloseUnder_effect conn .free w

theorem serves_of_pool_eq (f : Factory) (w w1 : World) (h : w1.pool = w.pool)
    (hw : w.serves f) : w1.serves f := by
  unfold World.serves at *
  rw [h]
  exact hw

theorem serves_of_live (f : Factory) (w w1 : World) (ch1 : Chan)
    (hc : w1.pool.conns = some ch1) (hf : w1.pool.factory = w.pool.factory)
    (hlive : w.pool.conns ≠ none) (hw : w.serves f) : w1.serves f := by
  rcases hw with ⟨h1, _⟩ | ⟨_, h2⟩
  · exact absurd h1 hlive
  · exact Or.inr ⟨by rw [hc]; simp, by rw [hf]; exact h2⟩

theorem Close_serves (f : Factory) (conn : Conn) (w : World) (hw : w.serves f) :
    (conn.Close w).world.serves f := by
  rcases Close_effect conn w with h | ⟨ch, x, hch, _, h⟩
  · exact serves_of_pool_eq f w _ h hw
  · exact serves_of_live f w _ _ (by rw [h]) (by rw [h]) (by rw [hch]; simp) hw

theorem Get_effect (w : World) :
    (channelPool.Get w).world.pool = w.pool
      ∨ ∃ ch c1 rest, w.pool.conns = some ch ∧ ch.buf = c1 :: rest ∧
          (channelPool.Get w).world.pool
            = { w.pool with conns := some { ch with buf := rest } } := by
  unfold channelPool.Get
  cases hch : w.pool.conns with
  | none => exact Or.inl rfl
  | some ch =>
    dsimp only
    cases hbuf : ch.buf with
    | nil =>
      dsimp only
      cases w.pool.factory with
      | none => exact Or.inl rfl
      | some f =>
        dsimp only
        cases (f w.calls).2 with
        | some err => exact Or.inl rfl
        | none => exact Or.inl rfl
    | cons conn rest =>
      dsimp only
      split
      · exact Or.inr ⟨ch, conn, rest, rfl, hbuf, rfl⟩
      · exact Or.inr ⟨ch, conn, rest, rfl, hbuf, rfl⟩

theorem Get_serves (f : Factory) (w : World) (hw : w.serves f) :
    (channelPool.Get w).world.serves f := by
  rcases Get_effect w with h | ⟨ch, c1, rest, hch, _, h⟩
  · exact serves_of_pool_eq f w _ h hw
  · exact serves_of_live f w _ _ (by rw [h]) (by rw [h]) (by rw [hch]; simp) hw

theorem after_serves {α : Type} (f : Factory) (s : Client) (r : Res α)
    (h : r.world.serves f) : (s.after r).w.serves f := by
  cases r <;> exact h

theorem step_serves (f : Factory) (s : Client) (op : Op) (hs : s.w.serves f) :
    (s.step op).w.serves f := by
  cases op with
  | get =>
    have hg := Get_serves f s.w hs
    simp only [Client.step]
    split
    · rename_i h w heq
      rw [heq] at hg
      exact hg
    · exact after_serves f s _ hg
  | close i =>
    simp only [Client.step]
    split
    · rename_i h heq
      exact after_serves f s _ (Close_serves f h s.w hs)
    · exact hs
  | markUnusable i =>
    simp only [Client.step]
    split
    · exact hs
    · exact hs
  | poolClose =>
    refine after_serves f s _ (Or.inl ?_)
    rw [(poolClose_pool s.w).1]
    exact ⟨rfl, rfl⟩
  | len => exact hs

theorem run_serves (f : Factory) (ops : List Op) :
    ∀ s : Client, s.w.serves f → (s.run ops).w.serves f := by
  induction ops with
  | nil => intro s hs; exact hs
  | cons op rest ih => intro s hs; exact ih (s.step op) (step_serves f s op hs)

theorem fill_serves (f : Factory) (k : Nat) :
    ∀ w : World, w.serves f → (NewChannelPool.fill (some f) k w).world.serves f := by
  induction k with
  | zero => intro w hw; exact hw
  | succ k ih =>
    intro w hw
    unfold NewChannelPool.fill
    dsimp only
    cases (f w.calls).2 with
    | some err =>
      dsimp only
      have hp := (poolClose_pool { w with calls := w.calls + 1 }).1
      have : (channelPool.Close { w with calls := w.calls + 1 }).world.serves f := by
        refine Or.inl ?_
        rw [hp]
        exact ⟨rfl, rfl⟩
      revert this
      cases channelPool.Close { w with calls := w.calls + 1 } <;> exact fun h => h
    | none =>
      dsimp only
      cases hch : w.pool.conns with
      | none => exact serves_of_pool_eq f w _ rfl hw
      | some ch =>
        dsimp only
        split
        · apply ih
          exact serves_of_live f w _ _ rfl rfl (by rw [hch]; simp) hw
        · exact serves_of_pool_eq f w _ rfl hw

theorem New_serves (chanMax : Nat) (initialCap maxCap : Int) (f : Factory)
    (cr : Nat → Nat → Option GoError) :
    (NewChannelPool chanMax initialCap maxCap (some f) cr).world.serves f := by
  unfold NewChannelPool
  split
  · exact Or.inl ⟨rfl, rfl⟩
  split
  · exact Or.inl ⟨rfl, rfl⟩
  · apply fill_serves
    exact Or.inr ⟨by simp, rfl⟩

theorem Get_no_panic_of_serves (f : Factory) (w : World) (hw : w.serves f) (w1 : World) :
    channelPool.Get w ≠ .panic w1 := by
  unfold channelPool.Get
  cases hch : w.pool.conns with
  | none => simp
  | some ch =>
    dsimp only
    cases hbuf : ch.buf with
    | nil =>
      dsimp only
      rcases hw with ⟨h1, _⟩ | ⟨_, h2⟩
      · rw [hch] at h1; cases h1
      · rw [h2]
        dsimp only
        cases (f w.calls).2 <;> simp
    | cons conn rest =>
      dsimp only
      split <;> simp

/-- Claim C16, at `NewChannelPool(1, 1, dialOk)` (a non-nil factory): the sequence `Get`,
then `Close` on the handle it returned, does not run to completion: the `Close` panics. -/
theorem C16_client_run_panics :
    NewChannelPool chanMax64 1 1 (some dialOk) closeOk = .ok (.pool, none) poolOfOne
      ∧ ((Client.init poolOfOne).run [.get]).panicked = false
      ∧ ((Client.init poolOfOne).run [.get, .close 0]).panicked = true :=
  ⟨rfl, rfl, rfl⟩

/-- Claim C18, at `NewChannelPool(1, 1, dialOk)`: the handle of the first `Get` (served
from the buffer) and the handle of the second `Get` (served by the factory) both have a
nil pool reference, and neither wraps its transport directly: each wraps the `PoolConn`
that holds the transport. -/
theorem C18_handle_has_no_pool_reference :
    ∃ w1 w2,
      channelPool.Get poolOfOne
          = .ok (.poolConn 1 (.poolConn 0 (.transport 0) .pool) .nilRef, none) w1
        ∧ channelPool.Get w1
          = .ok (.poolConn 3 (.poolConn 2 (.transport 1) .pool) .nilRef, none) w2 :=
  ⟨_, _, rfl, rfl⟩

/-- Claim C19: in every state that a client reaches from a successful
`NewChannelPool(initialCap, maxCap, f)` with `f` a non-nil factory, the field `conns` is
nil exactly when the field `factory` is nil; while the pool is live its factory is `f`;
and `Get` does not panic, so the factory called in its creation branch is never nil. -/
theorem C19_buffer_nil_iff_factory_nil (chanMax : Nat) (initialCap maxCap : Int) (f : Factory)
    (cr : Nat → Nat → Option GoError) (w0 : World)
    (hnew : NewChannelPool chanMax initialCap maxCap (some f) cr = .ok (.pool, none) w0)
    (ops : List Op) :
    (((Client.init w0).run ops).w.pool.conns = none
        ↔ ((Client.init w0).run ops).w.pool.factory = none)
      ∧ (((Client.init w0).run ops).w.pool.conns ≠ none →
          ((Client.init w0).run ops).w.pool.factory = some f)
      ∧ ∀ w1, channelPool.Get ((Client.init w0).run ops).w ≠ .panic w1 := by
  have h0 : w0.serves f := by
    have := New_serves chanMax initialCap maxCap f cr
    rw [hnew] at this
    exact this
  have hs := run_serves f ops (Client.init w0) h0
  refine ⟨?_, ?_, Get_no_panic_of_serves f _ hs⟩
  · rcases hs with ⟨h1, h2⟩ | ⟨h1, h2⟩
    · exact ⟨fun _ => h2, fun _ => h1⟩
    · exact ⟨fun h => absurd h h1, fun h => by rw [h2] at h; cases h⟩
  · intro hlive
    rcases hs with ⟨h1, _⟩ | ⟨_, h2⟩
    · exact absurd h1 hlive
    · exact h2

theorem heldFrom_append (done : List Nat) (h : Conn) (hs : List Conn) :
    ∀ k, Client.heldFrom done k (hs ++ [h])
      = Client.heldFrom done k hs
          ++ (if k + hs.length ∈ done then [] else h.underlying.toList) := by
  induction hs with
  | nil => intro k; simp [Client.heldFrom]
  | cons x xs ih =>
    intro k
    have e := ih (k + 1)
    rw [show k + 1 + xs.length = k + (xs.length + 1) by omega] at e
    show (if k ∈ done then [] else x.underlying.toList)
        ++ Client.heldFrom done (k + 1) (xs ++ [h]) = _
    rw [e]
    simp only [Client.heldFrom, List.length_cons, List.append_assoc]

theorem heldFrom_above (done : List Nat) (i : Nat) (hs : List Conn) :
    ∀ k, i < k → Client.heldFrom (done ++ [i]) k hs = Client.heldFrom done k hs := by
  induction hs with
  | nil => intro k _; rfl
  | cons x xs ih =>
    intro k hk
    simp only [Client.heldFrom, ih (k + 1) (by omega), List.mem_append, List.mem_singleton]
    have : k ≠ i := by omega
    simp [this]

theorem heldFrom_close (done : List Nat) (t : Nat) (hs : List Conn) :
    ∀ k j, k + j ∉ done →
      (Client.heldFrom done k hs).count t
        = ((hs.get? j).bind Conn.underlying).toList.count t
          + (Client.heldFrom (done ++ [k + j]) k hs).count t := by
  induction hs with
  | nil => intro k j _; simp [Client.heldFrom]
  | cons x xs ih =>
    intro k j hj
    cases j with
    | zero =>
      rw [Nat.add_zero] at hj
      simp only [Client.heldFrom, Nat.add_zero, List.get?_cons_zero, Option.some_bind,
        List.count_append, heldFrom_above done k xs (k + 1) (by omega), if_neg hj,
        List.mem_append, List.mem_singleton, or_true, if_true, List.count_nil, Nat.zero_add]
    | succ j =>
      have hne : k ≠ k + (j + 1) := by omega
      have hj2 : k + 1 + j ∉ done := by
        rw [show k + 1 + j = k + (j + 1) by omega]; exact hj
      have := ih (k + 1) j hj2
      rw [show k + 1 + j = k + (j + 1) by omega] at this
      simp only [Client.heldFrom, List.get?_cons_succ, List.count_append, this,
        List.mem_append, List.mem_singleton, hne, or_false]
      omega

theorem Close_handle_effect (h : Conn) (hh : h.isHandle = true) (w : World) :
    (h.Close w).world.pool = w.pool
      ∨ ∃ ch t, w.pool.conns = some ch ∧ h.underlying = some t ∧
          (h.Close w).world.pool
            = { w.pool with conns := some { ch with buf := ch.buf ++ [.transport t] } } := by
  match h, hh with
  | .poolConn addr x .nilRef, hx =>
    have hne : x ≠ .nil := idleEntry_ne_nil x hx
    rw [Close_poolConn]
    by_cases hu : w.unusable addr = true
    · simp only [hu, if_true, ne_eq, hne, not_false_eq_true]
      match x, hx with
      | .transport id, _ => exact Or.inl rfl
      | .poolConn b (.transport id) .pool, _ =>
        rw [Close_poolConn]
        by_cases hb : w.unusable b = true
        · simp only [hb, if_true, ne_eq, reduceCtorEq, not_false_eq_true]
          exact Or.inl rfl
        · simp only [hb, channelPool.putUsing, reduceCtorEq, if_false]
          cases hch : w.pool.conns with
          | none => exact Or.inl rfl
          | some ch =>
            dsimp only
            split
            · exact Or.inr ⟨ch, id, rfl, rfl, rfl⟩
            · exact Or.inl rfl
      | .poolConn b .nil .pool, _ =>
        rw [Close_poolConn]
        by_cases hb : w.unusable b = true
        · simp only [hb, if_true, ne_eq, not_true_eq_false, if_false]
          exact Or.inl rfl
        · simp only [hb, channelPool.putUsing, if_true, if_false]
          exact Or.inl rfl
    · simp only [hu, channelPool.putUsing, hne, if_false]
      exact Or.inl rfl

theorem idleTransports_of_pool (w w1 : World) (h : w1.pool = w.pool) :
    w1.idleTransports = w.idleTransports := by
  unfold World.idleTransports
  rw [h]

theorem idleTransports_of_send (w w1 : World) (ch : Chan) (x : Conn)
    (hch : w.pool.conns = some ch)
    (h : w1.pool = { w.pool with conns := some { ch with buf := ch.buf ++ [x] } }) :
    w1.idleTransports = w.idleTransports ++ x.underlying.toList := by
  unfold World.idleTransports
  rw [h, hch]
  cases hx : x.underlying <;> simp [List.filterMap_append, hx]

theorem idleTransports_of_take (w w1 : World) (ch : Chan) (c1 : Conn) (rest : List Conn)
    (hch : w.pool.conns = some ch) (hbuf : ch.buf = c1 :: rest)
    (h : w1.pool = { w.pool with conns := some { ch with buf := rest } }) :
    w.idleTransports = c1.underlying.toList ++ w1.idleTransports := by
  unfold World.idleTransports
  rw [h, hch]
  dsimp only
  rw [hbuf]
  cases hx : c1.underlying <;> simp [List.filterMap_cons, hx]

theorem count_toList_le (x : Option Nat) (t : Nat) :
    x.toList.count t ≤ if x = some t then 1 else 0 := by
  cases x with
  | none => simp
  | some a =>
    by_cases h : a = t
    · simp [h]
    · simp [h, List.count_cons]

theorem step_inPlay (f : Factory) (s : Client) (hs : s.wellFormed) (hf : s.w.serves f)
    (op : Op) (done : List Nat) (hop : ∀ i, op.closed? = some i → i ∉ done) (t : Nat) :
    s.w.calls ≤ (s.step op).w.calls
      ∧ ((s.step op).inPlay (done ++ op.closed?.toList)).count t
          ≤ (s.inPlay done).count t
            + (if s.w.calls < (s.step op).w.calls ∧ (f s.w.calls).1 = some t then 1 else 0) := by
  cases op with
  | len =>
    simp only [Client.step, Op.closed?, Option.toList, List.append_nil]
    exact ⟨Nat.le_refl _, Nat.le_add_right _ _⟩
  | markUnusable i =>
    have hsame : ∀ s1 : Client, s1.w.pool = s.w.pool → s1.handles = s.handles →
        s1.inPlay done = s.inPlay done := by
      intro s1 h1 h2
      unfold Client.inPlay Client.heldTransports
      rw [idleTransports_of_pool _ _ h1, h2]
    simp only [Op.closed?, Option.toList, List.append_nil]
    cases hm : (s.handles.get? i).bind Conn.addr? with
    | some addr =>
      have hstep : s.step (.markUnusable i)
          = { s with w := PoolConn.MarkUnusable addr s.w } := by
        simp only [Client.step, hm]
      rw [hstep, hsame _ rfl rfl]
      exact ⟨Nat.le_refl _, Nat.le_add_right _ _⟩
    | none =>
      have hstep : s.step (.markUnusable i) = s := by
        simp only [Client.step, hm]
      rw [hstep]
      exact ⟨Nat.le_refl _, Nat.le_add_right _ _⟩
  | poolClose =>
    have hp := poolClose_pool s.w
    have hw : (s.step .poolClose).w = (channelPool.Close s.w).world := by
      simp only [Client.step]
      cases channelPool.Close s.w <;> rfl
    have hh : (s.step .poolClose).handles = s.handles := by
      simp only [Client.step]
      exact after_handles s _
    simp only [Op.closed?, Option.toList, List.append_nil]
    refine ⟨by rw [hw, hp.2], ?_⟩
    unfold Client.inPlay Client.heldTransports
    rw [hh, hw]
    have : (channelPool.Close s.w).world.idleTransports = [] := by
      unfold World.idleTransports
      rw [hp.1]
    rw [this]
    simp only [List.nil_append, List.count_append]
    omega
  | close i =>
    have hi : i ∉ done := hop i rfl
    simp only [Op.closed?, Option.toList]
    have hcount := heldFrom_close done t s.handles 0 i (by rw [Nat.zero_add]; exact hi)
    rw [Nat.zero_add] at hcount
    cases hget : s.handles.get? i with
    | none =>
      have hstep : s.step (.close i) = s := by
        simp only [Client.step, hget]
      rw [hstep, hget] at *
      refine ⟨Nat.le_refl _, ?_⟩
      unfold Client.inPlay Client.heldTransports
      simp only [List.count_append]
      simp only [Option.none_bind, Option.toList, List.count_nil, Nat.zero_add] at hcount
      omega
    | some h =>
      have hmem : h ∈ s.handles := List.get?_mem hget
      have hh := hs.2 h hmem
      have hw : (s.step (.close i)).w = (h.Close s.w).world := by
        simp only [Client.step, hget]
        cases h.Close s.w <;> rfl
      have hhs : (s.step (.close i)).handles = s.handles := by
        simp only [Client.step, hget]
        exact after_handles s _
      rw [hget] at hcount
      simp only [Option.some_bind] at hcount
      refine ⟨by rw [hw, Close_calls], ?_⟩
      unfold Client.inPlay Client.heldTransports
      rw [hhs, hw]
      simp only [List.count_append]
      rcases Close_handle_effect h hh s.w with hp | ⟨ch, x, hch, hx, hp⟩
      · rw [idleTransports_of_pool _ _ hp]
        omega
      · rw [idleTransports_of_send _ _ ch (.transport x) hch hp]
        rw [hx] at hcount
        simp only [Conn.underlying, List.count_append]
        omega
  | get =>
    simp only [Op.closed?, Option.toList, List.append_nil]
    cases hch : s.w.pool.conns with
    | none =>
      have hstep : s.step .get = s := by
        simp only [Client.step, Get_of_closed s.w hch]
        rfl
      rw [hstep]
      exact ⟨Nat.le_refl _, Nat.le_add_right _ _⟩
    | some ch =>
      cases hbuf : ch.buf with
      | cons c1 rest =>
        have hc1 : c1 ≠ .nil :=
          idleEntry_ne_nil c1 (hs.1 ch hch c1 (by rw [hbuf]; exact List.mem_cons_self _ _))
        have hg := Get_of_idle_head s.w ch c1 rest hch hbuf hc1
        have hstep : s.step .get
            = { s with w := { s.w with pool := { s.w.pool with conns := some { ch with buf := rest } },
                                       flags := s.w.flags ++ [false] },
                       handles := s.handles ++ [.poolConn s.w.flags.length c1 .nilRef] } := by
          simp only [Client.step, hg]
        rw [hstep]
        refine ⟨Nat.le_refl _, ?_⟩
        unfold Client.inPlay Client.heldTransports
        dsimp only
        have htake := idleTransports_of_take s.w
          { s.w with pool := { s.w.pool with conns := some { ch with buf := rest } },
                     flags := s.w.flags ++ [false] } ch c1 rest hch hbuf rfl
        rw [heldFrom_append, htake]
        simp only [List.count_append, Conn.underlying]
        split <;> (try simp only [List.count_nil]) <;> omega
      | nil =>
        have hfac : s.w.pool.factory = some f := by
          rcases hf with ⟨h1, _⟩ | ⟨_, h2⟩
          · rw [hch] at h1; cases h1
          · exact h2
        cases hres : (f s.w.calls).2 with
        | some e =>
          have hg : channelPool.Get s.w = .ok (.nil, some e) { s.w with calls := s.w.calls + 1 } := by
            unfold channelPool.Get
            rw [hch]
            dsimp only
            rw [hbuf]
            dsimp only
            rw [hfac]
            dsimp only
            rw [hres]
          have hstep : s.step .get = { s with w := { s.w with calls := s.w.calls + 1 } } := by
            simp only [Client.step, hg]
            rfl
          rw [hstep]
          refine ⟨Nat.le_succ _, ?_⟩
          have hidle : World.idleTransports { s.w with calls := s.w.calls + 1 }
              = s.w.idleTransports := idleTransports_of_pool _ _ rfl
          unfold Client.inPlay Client.heldTransports
          dsimp only
          rw [hidle]
          exact Nat.le_add_right _ _
        | none =>
          have hg := Get_of_empty s.w ch f hch hbuf hfac hres
          have hstep : s.step .get
              = { s with w := { s.w with calls := s.w.calls + 1,
                                         flags := s.w.flags ++ [false] ++ [false] },
                         handles := s.handles ++ [.poolConn (s.w.flags.length + 1)
                           (.poolConn s.w.flags.length (Conn.ofTransport (f s.w.calls).1) .pool)
                           .nilRef] } := by
            simp only [Client.step, hg]
          rw [hstep]
          refine ⟨Nat.le_succ _, ?_⟩
          unfold Client.inPlay Client.heldTransports
          dsimp only
          have hidle : World.idleTransports
              { s.w with calls := s.w.calls + 1, flags := s.w.flags ++ [false] ++ [false] }
              = s.w.idleTransports := idleTransports_of_pool _ _ rfl
          rw [heldFrom_append, hidle]
          simp only [List.count_append, Conn.underlying, underlying_ofTransport,
            Nat.lt_succ_self, true_and]
          have := count_toList_le (f s.w.calls).1 t
          split <;> (try simp only [List.count_nil]) <;> omega

theorem fresh_extend (f : Factory) (hinj : f.distinct) (old new : List Nat) (c c1 : Nat)
    (hc : c ≤ c1)
    (hcount : ∀ t, new.count t
      ≤ old.count t + (if c < c1 ∧ (f c).1 = some t then 1 else 0))
    (h1 : ∀ t, old.count t ≤ 1)
    (h2 : ∀ t ∈ old, ∃ i, i < c ∧ (f i).1 = some t) :
    (∀ t, new.count t ≤ 1) ∧ ∀ t ∈ new, ∃ i, i < c1 ∧ (f i).1 = some t := by
  refine ⟨fun t => ?_, fun t ht => ?_⟩
  · have hn := hcount t
    by_cases hold : t ∈ old
    · obtain ⟨i, hi, hfi⟩ := h2 t hold
      have hneg : ¬ (c < c1 ∧ (f c).1 = some t) := by
        rintro ⟨_, hfc⟩
        have := hinj i c t hfi hfc
        omega
      rw [if_neg hneg] at hn
      have := h1 t
      omega
    · rw [List.count_eq_zero_of_not_mem hold] at hn
      split at hn <;> omega
  · have hn := hcount t
    have hpos : 0 < new.count t := List.count_pos_iff.mpr ht
    by_cases hold : t ∈ old
    · obtain ⟨i, hi, hfi⟩ := h2 t hold
      exact ⟨i, by omega, hfi⟩
    · rw [List.count_eq_zero_of_not_mem hold] at hn
      split at hn
      · rename_i hcond
        exact ⟨c, hcond.1, hcond.2⟩
      · omega

theorem fresh_of_pool_eq (f : Factory) (w w1 : World) (hp : w1.pool = w.pool)
    (hc : w.calls ≤ w1.calls) (hw : w.fresh f) : w1.fresh f := by
  unfold World.fresh at *
  rw [idleTransports_of_pool _ _ hp]
  refine ⟨hw.1, fun t ht => ?_⟩
  obtain ⟨i, hi, hfi⟩ := hw.2 t ht
  exact ⟨i, by omega, hfi⟩

theorem fresh_of_closed (f : Factory) (w : World) (h : w.pool.conns = none) : w.fresh f := by
  unfold World.fresh World.idleTransports
  rw [h]
  exact ⟨fun t => by simp, fun t ht => by cases ht⟩

theorem fill_fresh (f : Factory) (hinj : f.distinct) (k : Nat) :
    ∀ w : World, w.fresh f → (NewChannelPool.fill (some f) k w).world.fresh f := by
  induction k with
  | zero => intro w hw; exact hw
  | succ k ih =>
    intro w hw
    unfold NewChannelPool.fill
    dsimp only
    cases (f w.calls).2 with
    | some err =>
      dsimp only
      have := fresh_of_closed f _ (poolClose_closed { w with calls := w.calls + 1 })
      revert this
      cases channelPool.Close { w with calls := w.calls + 1 } <;> exact fun h => h
    | none =>
      dsimp only
      cases hch : w.pool.conns with
      | none => exact fresh_of_pool_eq f w _ rfl (Nat.le_succ _) hw
      | some ch =>
        dsimp only
        split
        · apply ih
          have hidle := idleTransports_of_send w
            (World.send (World.alloc { w with calls := w.calls + 1 }) ch
              (.poolConn w.flags.length (Conn.ofTransport (f w.calls).1) .pool))
            ch (.poolConn w.flags.length (Conn.ofTransport (f w.calls).1) .pool) hch rfl
          unfold World.fresh
          rw [hidle]
          refine fresh_extend f hinj w.idleTransports _ w.calls (w.calls + 1) (Nat.le_succ _)
            (fun t => ?_) hw.1 hw.2
          simp only [List.count_append, Conn.underlying, underlying_ofTransport,
            Nat.lt_succ_self, true_and]
          have := count_toList_le (f w.calls).1 t
          omega
        · exact fresh_of_pool_eq f w _ rfl (Nat.le_succ _) hw

theorem New_fresh (chanMax : Nat) (initialCap maxCap : Int) (f : Factory) (hinj : f.distinct)
    (cr : Nat → Nat → Option GoError) :
    (NewChannelPool chanMax initialCap maxCap (some f) cr).world.fresh f := by
  unfold NewChannelPool
  split
  · exact fresh_of_closed f _ rfl
  split
  · exact fresh_of_closed f _ rfl
  · apply fill_fresh f hinj
    exact ⟨fun t => by simp [World.idleTransports], fun t ht => by
      simp [World.idleTransports] at ht⟩

theorem step_distinct (f : Factory) (hinj : f.distinct) (s : Client) (op : Op)
    (done : List Nat) (hs : s.distinct f done)
    (hop : ∀ i, op.closed? = some i → i ∉ done) :
    (s.step op).distinct f (done ++ op.closed?.toList) := by
  obtain ⟨hwf, hsv, h1, h2⟩ := hs
  have hstep := fun t => step_inPlay f s hwf hsv op done hop t
  have hc : s.w.calls ≤ (s.step op).w.calls := (hstep 0).1
  have := fresh_extend f hinj (s.inPlay done) ((s.step op).inPlay (done ++ op.closed?.toList))
    s.w.calls (s.step op).w.calls hc (fun t => (hstep t).2) h1 h2
  exact ⟨step_wellFormed s op hwf, step_serves f s op hsv, this.1, this.2⟩

theorem run_distinct (f : Factory) (hinj : f.distinct) (ops : List Op) :
    ∀ (s : Client) (done : List Nat), s.distinct f done →
      (ops.filterMap Op.closed?).Nodup →
      (∀ i ∈ ops.filterMap Op.closed?, i ∉ done) →
      (s.run ops).distinct f (done ++ ops.filterMap Op.closed?) := by
  induction ops with
  | nil =>
    intro s done hs _ _
    simpa [Client.run] using hs
  | cons op rest ih =>
    intro s done hs hnd hdis
    have hsplit : (op :: rest).filterMap Op.closed?
        = op.closed?.toList ++ rest.filterMap Op.closed? := by
      rw [List.filterMap_cons]
      cases op.closed? <;> rfl
    rw [hsplit] at hnd hdis ⊢
    rw [List.nodup_append] at hnd
    have hstep := step_distinct f hinj s op done hs (by
      intro i hi
      exact hdis i (by rw [hi]; simp))
    have := ih (s.step op) (done ++ op.closed?.toList) hstep hnd.2.1 (by
      intro i hi hmem
      rcases List.mem_append.mp hmem with hm | hm
      · exact hdis i (List.mem_append_right _ hi) hm
      · exact hnd.2.2 hm hi)
    rw [List.append_assoc] at this
    exact this

/-- Claim C20, as amended: for a factory that never yields the same transport twice, in
every state that a client reaches from a successful `NewChannelPool` by any sequence of
`Get`, `MarkUnusable`, `Close` on returned handles and pool `Close` in which no handle is
closed more than once, no transport occurs more than once in the buffer; more, the
transports in the buffer and behind the handles not yet closed are pairwise distinct, so
no transport is checked out by two `Get` calls at the same time. -/
theorem C20_no_duplicates (chanMax : Nat) (initialCap maxCap : Int) (f : Factory)
    (cr : Nat → Nat → Option GoError) (w0 : World)
    (hnew : NewChannelPool chanMax initialCap maxCap (some f) cr = .ok (.pool, none) w0)
    (hinj : f.distinct) (ops : List Op) (hops : (ops.filterMap Op.closed?).Nodup) :
    ((Client.init w0).run ops).w.idleTransports.Nodup
      ∧ (((Client.init w0).run ops).inPlay (ops.filterMap Op.closed?)).Nodup := by
  have hwf := reachable_wellFormed chanMax initialCap maxCap (some f) cr w0 hnew []
  have hsv : w0.serves f := by
    have := New_serves chanMax initialCap maxCap f cr
    rw [hnew] at this
    exact this
  have hfr : w0.fresh f := by
    have := New_fresh chanMax initialCap maxCap f hinj cr
    rw [hnew] at this
    exact this
  have h0 : (Client.init w0).distinct f [] := by
    refine ⟨hwf, hsv, ?_, ?_⟩
    · intro t
      simpa [Client.inPlay, Client.heldTransports, Client.heldFrom, Client.init] using hfr.1 t
    · intro t ht
      have : t ∈ w0.idleTransports := by
        simpa [Client.inPlay, Client.heldTransports, Client.heldFrom, Client.init] using ht
      exact hfr.2 t this
  have := run_distinct f hinj ops (Client.init w0) [] h0 hops (fun i _ h => by cases h)
  rw [List.nil_append] at this
  have hnd : (((Client.init w0).run ops).inPlay (ops.filterMap Op.closed?)).Nodup :=
    List.nodup_iff_count_le_one.mpr this.2.2.1
  exact ⟨(List.sublist_append_left _ _).nodup hnd, hnd⟩

/-! ## Instances of the theorems above -/

/-- The bound of C3 on a pool of capacity 1, along a run that recycles, re-admits and shuts down. -/
theorem C3_len_le_maxCap_witness :
    NewChannelPool chanMax64 1 1 (some dialOk) closeOk = .ok (.pool, none) poolOfOne
      ∧ (channelPool.Len ((Client.init poolOfOne).run
          [.get, .markUnusable 0, .close 0, .close 0, .get, .close 1, .poolClose]).w : Int) ≤ 1 :=
  ⟨rfl, C3_len_le_maxCap chanMax64 1 1 (some dialOk) closeOk poolOfOne rfl _⟩

/-- Claim C4 as stated fails at `NewChannelPool(1, 2, dialOk)`: after `Get`,
`MarkUnusable` and two `Close` calls on the one handle, the buffer holds transport 0
twice and pool `Close` closes it twice; and after one more `Get`, pool `Close` closes
transport 0 while the handle of that `Get`, not closed, holds it. -/
theorem C4_duplicate_is_closed_twice :
    (((Client.init poolOfOneInTwo).run
        [.get, .markUnusable 0, .close 0, .close 0]).w.pool.conns.map Chan.buf)
        = some [.transport 0, .transport 0]
      ∧ (channelPool.Close ((Client.init poolOfOneInTwo).run
          [.get, .markUnusable 0, .close 0, .close 0]).w).world.closeLog = [0, 0]
      ∧ (((Client.init poolOfOneInTwo).run
          [.get, .markUnusable 0, .close 0, .close 0, .get]).handles.get? 1).bind Conn.underlying
          = some 0
      ∧ (channelPool.Close ((Client.init poolOfOneInTwo).run
          [.get, .markUnusable 0, .close 0, .close 0, .get]).w).world.closeLog = [0] :=
  ⟨rfl, rfl, rfl, rfl⟩

/-- The drain of C4 on the pool built by `NewChannelPool(2, 3, dialOk)`: transports 0 and 1
are closed, once each. -/
theorem C4_pool_close_drains_witness :
    poolOfTwo.pool.conns
        = some { cap := 3, buf := [.poolConn 0 (.transport 0) .pool, .poolConn 1 (.transport 1) .pool] }
      ∧ channelPool.Close poolOfTwo
        = .ok () { poolOfTwo with pool := { conns := none, factory := none },
                                  closeLog := poolOfTwo.closeLog ++ [0, 1] } :=
  ⟨rfl, (C4_pool_close_drains poolOfTwo
    { cap := 3, buf := [.poolConn 0 (.transport 0) .pool, .poolConn 1 (.transport 1) .pool] }
    rfl (by decide) (by decide)).1⟩

/-- Claim C8 as stated fails at `NewChannelPool(0, 9223372036854775807, dialOk)` on a
platform whose limit is `chanMax64`: the capacities are valid and the factory never
fails, yet the constructor panics in `make`. -/
theorem C8_make_panics :
    (0 : Int) ≤ 0 ∧ (0 : Int) ≤ 9223372036854775807 ∧ (0 : Int) < 9223372036854775807
      ∧ (∀ i, (dialOk i).2 = none)
      ∧ NewChannelPool chanMax64 0 9223372036854775807 (some dialOk) closeOk
          = .panic (World.start closeOk) :=
  ⟨by decide, by decide, by decide, fun _ => rfl,
    New_of_too_large chanMax64 0 9223372036854775807 (some dialOk) closeOk (by decide)
      (by decide)⟩

/-- The construction of C8 for `NewChannelPool(2, 3, dialOk)`. -/
theorem C8_prewarm_witness :
    ∃ w, NewChannelPool chanMax64 2 3 (some dialOk) closeOk = .ok (.pool, none) w
      ∧ (w.calls : Int) = 2
      ∧ (channelPool.Len w : Int) = 2
      ∧ w.pool.conns.isSome = true
      ∧ w.pool.factory.isSome = true
      ∧ w.closeLog = [] :=
  C8_prewarm chanMax64 2 3 dialOk closeOk (by decide) (by decide) (by decide) (by decide)
    (fun _ => rfl)

/-- Claim C9 as stated fails at `NewChannelPool(1, 9223372036854775807, dialNever)` on a
platform whose limit is `chanMax64`, with `k = 1`: the capacities are valid and the first
factory call would fail, yet the constructor panics in `make` and the factory is never
invoked. -/
theorem C9_make_panics :
    (0 : Int) ≤ 1 ∧ (1 : Int) ≤ 9223372036854775807 ∧ (0 : Int) < 9223372036854775807
      ∧ (dialNever (1 - 1)).2 = some (.foreign "dial refused")
      ∧ NewChannelPool chanMax64 1 9223372036854775807 (some dialNever) closeOk
          = .panic (World.start closeOk)
      ∧ (NewChannelPool chanMax64 1 9223372036854775807 (some dialNever) closeOk).world.calls
          = 0 :=
  ⟨by decide, by decide, by decide, rfl,
    New_of_too_large chanMax64 1 9223372036854775807 (some dialNever) closeOk (by decide)
      (by decide),
    by rw [New_of_too_large chanMax64 1 9223372036854775807 (some dialNever) closeOk
      (by decide) (by decide)]; rfl⟩

/-- The failure of C9 for `NewChannelPool(3, 4, dialTwice)`, whose third factory call fails. -/
theorem C9_prewarm_failure_witness :
    (dialTwice 2).2 = some (.foreign "dial refused")
      ∧ ∃ err w, NewChannelPool chanMax64 3 4 (some dialTwice) closeOk = .ok (.nilRef, some err) w
        ∧ (∀ t, err.Error t
            = "factory is not able to fill the pool: " ++ (GoError.foreign "dial refused").Error t)
        ∧ w.calls = 3
        ∧ w.closeLog = (List.range (3 - 1)).filterMap (fun i => (dialTwice i).1)
        ∧ w.pool.conns = none
        ∧ w.pool.factory = none :=
  ⟨rfl, C9_prewarm_failure chanMax64 3 4 dialTwice closeOk 3 (.foreign "dial refused")
    (by decide) (by decide) (by decide) (by decide) (by decide) (by decide)
    (by
      intro i hi
      have hlt : i < 2 := by omega
      simp [dialTwice, hlt])
    rfl⟩

/-- The count of C10 for three `Get` calls on a pool holding one idle connection. -/
theorem C10_consecutive_gets_witness :
    ∃ rs w1, channelPool.getMany 3 poolOfOne = .ok rs w1
      ∧ rs.length = 3
      ∧ (∀ r ∈ rs, r.1 ≠ Conn.nil ∧ r.2 = none)
      ∧ w1.calls = poolOfOne.calls + (3 - 1)
      ∧ channelPool.Len w1 = 1 - 3 :=
  C10_consecutive_gets dialOk (fun _ => rfl) 3 1 poolOfOne
    { cap := 1, buf := [.poolConn 0 (.transport 0) .pool] } rfl rfl rfl (by decide)

theorem dialOk_distinct : dialOk.distinct := by
  intro i j t hi hj
  simp only [dialOk, Option.some.injEq] at hi hj
  omega

/-- Claim C20 as stated fails at `NewChannelPool(1, 2, dialOk)`: after `Get`,
`MarkUnusable` and two `Close` calls on the one handle, transport 0 sits twice in the
buffer, and the next two `Get` calls hand it out twice. -/
theorem C20_double_close_duplicates :
    dialOk.distinct
      ∧ NewChannelPool chanMax64 1 2 (some dialOk) closeOk = .ok (.pool, none) poolOfOneInTwo
      ∧ ((Client.init poolOfOneInTwo).run
          [.get, .markUnusable 0, .close 0, .close 0]).w.idleTransports = [0, 0]
      ∧ ¬ ((Client.init poolOfOneInTwo).run
          [.get, .markUnusable 0, .close 0, .close 0]).w.idleTransports.Nodup
      ∧ (((Client.init poolOfOneInTwo).run
          [.get, .markUnusable 0, .close 0, .close 0, .get, .get]).handles.map Conn.underlying)
          = [some 0, some 0, some 0] :=
  ⟨dialOk_distinct, rfl, rfl, by decide, rfl⟩

/-- The bound of C20 on a run in which each handle is closed once. -/
theorem C20_no_duplicates_witness :
    NewChannelPool chanMax64 1 2 (some dialOk) closeOk = .ok (.pool, none) poolOfOneInTwo
      ∧ ((Client.init poolOfOneInTwo).run
          [.get, .markUnusable 0, .close 0, .get, .get, .markUnusable 2, .close 2, .close 1]
          ).w.idleTransports.Nodup
      ∧ (((Client.init poolOfOneInTwo).run
          [.get, .markUnusable 0, .close 0, .get, .get, .markUnusable 2, .close 2, .close 1]
          ).inPlay
          (List.filterMap Op.closed?
            [.get, .markUnusable 0, .close 0, .get, .get, .markUnusable 2, .close 2, .close 1])
          ).Nodup :=
  ⟨rfl, C20_no_duplicates chanMax64 1 2 dialOk closeOk poolOfOneInTwo rfl dialOk_distinct
    [.get, .markUnusable 0, .close 0, .get, .get, .markUnusable 2, .close 2, .close 1]
    (by decide)⟩

/-- Claim C11 as stated fails on the pool of `NewChannelPool(1, 1, dialOk)`, whose buffer
is full: `put` of the `*PoolConn` of that pool at address 0, which is not nil and not
marked unusable, does not return the result of a close: it never returns, and nothing
is closed. -/
theorem C11_put_of_pooled_conn_blocks :
    poolOfOne.pool.conns = some { cap := 1, buf := [.poolConn 0 (.transport 0) .pool] }
      ∧ Conn.poolConn 0 (.transport 0) .pool ≠ Conn.nil
      ∧ channelPool.put .pool (.poolConn 0 (.transport 0) .pool) poolOfOne
          = .blocked poolOfOne
      ∧ poolOfOne.closeLog = [] :=
  ⟨rfl, by decide, rfl, rfl⟩

/-- The first case of C11 on the pool of `NewChannelPool(1, 2, dialOk)`, which has room,
with transport 7. -/
theorem C11_put_on_live_pool_witness :
    poolOfOneInTwo.pool.conns = some { cap := 2, buf := [.poolConn 0 (.transport 0) .pool] }
      ∧ channelPool.put .pool (.transport 7) poolOfOneInTwo
          = .ok none { poolOfOneInTwo with pool := { poolOfOneInTwo.pool with
              conns := some { cap := 2,
                              buf := [.poolConn 0 (.transport 0) .pool] ++ [.transport 7] } } } :=
  ⟨rfl, (C11_put_on_live_pool poolOfOneInTwo
    { cap := 2, buf := [.poolConn 0 (.transport 0) .pool] } (.transport 7) rfl
    (by decide)).1 (by decide)⟩

/-- Claim C12 as stated fails on the pool of `NewChannelPool(1, 1, dialOk)` after it was
shut down: `put` of a `*PoolConn` of that pool around transport 7, not nil and not marked
unusable, never returns, and transport 7 is not closed. -/
theorem C12_put_of_pooled_conn_blocks :
    poolShut.pool.conns = none
      ∧ Conn.poolConn 0 (.transport 7) .pool ≠ Conn.nil
      ∧ channelPool.put .pool (.poolConn 0 (.transport 7) .pool) poolShut = .blocked poolShut
      ∧ poolShut.closeLog = [0] :=
  ⟨rfl, by decide, rfl, rfl⟩

/-- The statement of C12 on a pool that was shut down, with transport 7. -/
theorem C12_put_on_closed_pool_witness :
    poolShut.pool.conns = none
      ∧ channelPool.put .pool (.transport 7) poolShut
          = .ok (poolShut.closeResult 7 (poolShut.closeLog.count 7))
              { poolShut with closeLog := poolShut.closeLog ++ [7] } :=
  ⟨rfl, (C12_put_on_closed_pool poolShut (.transport 7) rfl (by decide)).2.2.2.1 7 rfl⟩

/-- The statement of C14 on a live, empty pool whose factory fails. -/
theorem C14_get_factory_error_witness :
    channelPool.Get poolOfNone
        = .ok (.nil, some (.foreign "dial refused")) { poolOfNone with calls := poolOfNone.calls + 1 }
      ∧ (channelPool.Get poolOfNone).world.pool = poolOfNone.pool
      ∧ channelPool.Len (channelPool.Get poolOfNone).world = 0 :=
  C14_get_factory_error poolOfNone { cap := 1, buf := [] } dialNever (.foreign "dial refused")
    rfl rfl rfl rfl

/-- The statement of C17 on the pool of `NewChannelPool(2, 3, dialOk)`: the `Get` takes the
connection created first. -/
theorem C17_buffer_is_fifo_witness :
    channelPool.Get poolOfTwo
        = .ok (.poolConn poolOfTwo.flags.length (.poolConn 0 (.transport 0) .pool) .nilRef, none)
            { poolOfTwo with
              pool := { poolOfTwo.pool with
                        conns := some { cap := 3, buf := [.poolConn 1 (.transport 1) .pool] } },
              flags := poolOfTwo.flags ++ [false] } :=
  (C17_buffer_is_fifo poolOfTwo
    { cap := 3, buf := [.poolConn 0 (.transport 0) .pool, .poolConn 1 (.transport 1) .pool] }
    (.poolConn 0 (.transport 0) .pool) [.poolConn 1 (.transport 1) .pool] rfl rfl
    (by decide)).1

/-- The invariant of C19 along a run that empties the pool, creates, re-admits and shuts
down. -/
theorem C19_buffer_nil_iff_factory_nil_witness :
    NewChannelPool chanMax64 1 1 (some dialOk) closeOk = .ok (.pool, none) poolOfOne
      ∧ (((Client.init poolOfOne).run
            [.get, .get, .markUnusable 1, .close 1, .poolClose, .get]).w.pool.conns = none
          ↔ ((Client.init poolOfOne).run
            [.get, .get, .markUnusable 1, .close 1, .poolClose, .get]).w.pool.factory = none) :=
  ⟨rfl, (C19_buffer_nil_iff_factory_nil chanMax64 1 1 dialOk closeOk poolOfOne rfl
    [.get, .get, .markUnusable 1, .close 1, .poolClose, .get]).1⟩

end tcpPool
